import Mathlib

/-
  Formal model of the pikaraoke database-upgrade reference implementation
  (docs/archive/database_upgrade.py): the library reconciliation scan
  (content fingerprinting, format-pair detection, add/move/update/delete
  merge) and the disaster-recovery primitives (backup snapshot, restore).

  Machine-level conventions of the embedding:
  - Python dicts are modelled as association lists with replace-on-insert
    semantics (dinsert / dlookup / dremove below).
  - The md5 digest of the size string concatenated with the 16 KiB header
    is modelled as the injective pair (size, header); the specification
    treats digest collisions as identical content, so an injective digest
    stand-in is faithful.
  - SQL statements executed inside the single scan transaction are
    buffered as Mutation values and applied by the commit; the source
    reads the table exactly once, before the first write, so buffering is
    observationally identical.
  - External I/O outcomes (file readability, copy success, makedirs
    success) are explicit Boolean inputs of the model.
-/

set_option maxRecDepth 4000

-- ==========================================
-- Association lists with Python-dict semantics
-- ==========================================

/-- Lookup of a key in an association list, first match wins. -/
def dlookup {α β : Type} [DecidableEq α] : List (α × β) → α → Option β
  | [], _ => none
  | (k0, v0) :: rest, k => if k0 = k then some v0 else dlookup rest k

/-- Insert with replacement, mirroring assignment into a Python dict. -/
def dinsert {α β : Type} [DecidableEq α] : List (α × β) → α → β → List (α × β)
  | [], k, v => [(k, v)]
  | (k0, v0) :: rest, k, v =>
    if k0 = k then (k, v) :: rest else (k0, v0) :: dinsert rest k v

/-- Removal of every binding of a key, mirroring del on a Python dict. -/
def dremove {α β : Type} [DecidableEq α] : List (α × β) → α → List (α × β)
  | [], _ => []
  | (k0, v0) :: rest, k =>
    if k0 = k then dremove rest k else (k0, v0) :: dremove rest k

/-- The keys of an association list. -/
def dkeys {α β : Type} [DecidableEq α] (m : List (α × β)) : List α :=
  m.map Prod.fst

-- ==========================================
-- Strings: helpers mirroring the Python primitives used by the source
-- ==========================================

/-- Lowercasing, mirroring str.lower on the ASCII names the source handles. -/
def strLower (s : String) : String :=
  ⟨s.data.map Char.toLower⟩

/-- Core of os.path.splitext: split a character list at its last dot.
    Callers of the source filter hidden (leading-dot) names before this
    runs, so the Python special case for leading dots is unreachable. -/
def splitextCore : List Char → List Char × List Char
  | [] => ([], [])
  | c :: rest =>
    let be := splitextCore rest
    if be.2.isEmpty then
      if c = '.' then ([], c :: rest) else (c :: rest, [])
    else (c :: be.1, be.2)

/-- os.path.splitext as used by the scanner: (base, extension with dot). -/
def splitext (s : String) : String × String :=
  let be := splitextCore s.data
  (⟨be.1⟩, ⟨be.2⟩)

/-- The test file.startswith of a dot, marking hidden files. -/
def startsWithDot (s : String) : Bool :=
  match s.data with
  | '.' :: _ => true
  | _ => false

/-- str.replace of every underscore by a space, as used on single
    characters by add_song_placeholder. -/
def underscoreToSpace (s : String) : String :=
  ⟨s.data.map (fun c => if c = '_' then ' ' else c)⟩

-- ==========================================
-- Data model: catalog rows and disk files
-- ==========================================

/-- The md5 digest of the size string concatenated with the 16 KiB header,
    modelled as the injective pair of both inputs (spec: collisions are
    treated as identical content, so an injective digest is faithful). -/
abbrev Digest := Nat × List Nat

/-- One row of the songs table. Columns that only the out-of-scope
    enrichment collaborator writes are carried with their defaults. -/
structure SongRow where
  id : Nat
  file_path : String
  file_hash : Option Digest
  filename : String
  artist : Option String := none
  title : Option String := none
  variant : Option String := none
  year : Option Nat := none
  genre : Option String := none
  youtube_id : Option String := none
  format : String
  search_blob : Option String := none
  is_visible : Bool := true
  metadata_status : String
deriving DecidableEq

/-- A file encountered by the walk: its name inside the directory, whether
    open and stat succeed, and its size plus first 16 KiB of content. -/
structure DiskFile where
  name : String
  readable : Bool
  size : Nat
  header : List Nat
deriving DecidableEq

/-- One directory yielded by os.walk, identified by its path relative to
    the library root (empty string for the root itself). -/
structure DirEntry where
  relRoot : String
  files : List DiskFile
deriving DecidableEq

/-- The classification of one disk file: display filename, format tag and
    optional fingerprint. -/
structure DiskEntry where
  filename : String
  fmt : String
  fp : Option Digest
deriving DecidableEq

-- ==========================================
-- FingerprintEngine: get_fingerprint
-- ==========================================

/-- get_fingerprint: fast hash of size plus 16 KiB header; any OSError
    while reading or statting yields None instead of failing the scan. -/
def get_fingerprint (f : DiskFile) : Option Digest :=
  if f.readable then some (f.size, f.header) else none

-- ==========================================
-- FormatDetector: the pair-detection logic of the walk loop
-- ==========================================

/-- The video container extensions recognized by the scanner. -/
def VIDEO_EXTS : List String := [".mp4", ".mkv", ".avi", ".webm"]

/-- Pair-detection logic of scan_library for a single file, given the
    lowercased names of every file in the same directory. -/
def classify (files_lower : List String) (file : String) : Option String :=
  let be := splitext file
  let ext := strLower be.2
  if ext = ".mp3" && files_lower.contains (strLower be.1 ++ ".cdg") then some "CDG"
  else if ext = ".zip" then some "ZIP"
  else if VIDEO_EXTS.contains ext then
    some (if files_lower.contains (strLower be.1 ++ ".ass") then "MP4+ASS" else "MP4")
  else none

/-- os.path.join of the directory (relative to the root) with the file
    name, yielding the rel_path key of disk_files. -/
def joinRel (root name : String) : String :=
  if root = "" then name else root ++ "/" ++ name

/-- The body of the os.walk loop for a single file: skip hidden files,
    classify the rest, and record classified files with fingerprints. -/
def discoverStep (relRoot : String) (files_lower : List String)
    (acc : List (String × DiskEntry)) (f : DiskFile) : List (String × DiskEntry) :=
  if startsWithDot f.name then acc
  else
    match classify files_lower f.name with
    | some fmt => dinsert acc (joinRel relRoot f.name) ⟨f.name, fmt, get_fingerprint f⟩
    | none => acc

/-- The os.walk loop for one directory. -/
def discoverDir (acc : List (String × DiskEntry)) (d : DirEntry) : List (String × DiskEntry) :=
  d.files.foldl (discoverStep d.relRoot (d.files.map (fun f => strLower f.name))) acc

/-- Step 1 of scan_library: the disk_files dict produced by the walk. -/
def discover (walk : List DirEntry) : List (String × DiskEntry) :=
  walk.foldl discoverDir []

-- ==========================================
-- ReconciliationEngine: scan_library
-- ==========================================

/-- Scan statistics, mirroring the stats dict of scan_library. -/
structure Stats where
  added : Nat
  moved : Nat
  deleted : Nat
  updated : Nat
deriving DecidableEq

/-- The all-zero statistics record. -/
def zeroStats : Stats := ⟨0, 0, 0, 0⟩

/-- One buffered SQL statement of the scan transaction. -/
inductive Mutation where
  | updContent (id : Nat) (file_hash : Option Digest) (format filename : String)
  | updPath (id : Nat) (file_path filename format : String)
  | ins (row : SongRow)
  | del (id : Nat)
deriving DecidableEq

/-- Application of one buffered statement to the songs table. The UPDATE
    statements address rows by id, INSERT appends, DELETE filters by id. -/
def applyMutation (cat : List SongRow) (m : Mutation) : List SongRow :=
  match m with
  | .updContent i fp fmt fn =>
    cat.map (fun r => if r.id = i then { r with file_hash := fp, format := fmt, filename := fn } else r)
  | .updPath i p fn fmt =>
    cat.map (fun r => if r.id = i then { r with file_path := p, filename := fn, format := fmt } else r)
  | .ins row => cat ++ [row]
  | .del i => cat.filter (fun r => decide (r.id ≠ i))

/-- The dict of database rows keyed by file_path (step 2 of scan_library);
    the UNIQUE constraint on file_path makes first-match lookup faithful. -/
def findByPath (cat : List SongRow) (p : String) : Option SongRow :=
  cat.find? (fun r => decide (r.file_path = p))

/-- Step 3: disk paths also present in the catalog, in walk order. -/
def commonOf (cat : List SongRow) (disk : List (String × DiskEntry)) :
    List (String × DiskEntry) :=
  disk.filter (fun pe => (findByPath cat pe.1).isSome)

/-- Step 3: disk paths absent from the catalog, in walk order. -/
def newOf (cat : List SongRow) (disk : List (String × DiskEntry)) :
    List (String × DiskEntry) :=
  disk.filter (fun pe => (findByPath cat pe.1).isNone)

/-- Step 3: catalog rows whose path is no longer on disk, in table order
    (the Python set iteration order is unspecified; the model fixes a
    deterministic one, which no statement below depends on). -/
def missingOf (cat : List SongRow) (disk : List (String × DiskEntry)) : List SongRow :=
  cat.filter (fun r => (dlookup disk r.file_path).isNone)

/-- Loop A of scan_library: the UPDATE issued for one common path when
    fingerprint or format differs from the stored row. -/
def updateFor (cat : List SongRow) (pe : String × DiskEntry) : Option Mutation :=
  match findByPath cat pe.1 with
  | none => none
  | some row =>
    if row.file_hash ≠ pe.2.fp ∨ row.format ≠ pe.2.fmt then
      some (.updContent row.id pe.2.fp pe.2.fmt pe.2.filename)
    else none

/-- All UPDATE statements of loop A, in iteration order. -/
def mutsAOf (cat : List SongRow) (disk : List (String × DiskEntry)) : List Mutation :=
  (commonOf cat disk).filterMap (updateFor cat)

/-- One step of building the missing_hashes dict: fingerprint to row,
    restricted to rows with a non-null stored fingerprint, later rows
    overwriting earlier ones. -/
def mhStep (m : List (Digest × SongRow)) (r : SongRow) : List (Digest × SongRow) :=
  match r.file_hash with
  | some h => dinsert m h r
  | none => m

/-- The missing_hashes dict built over every missing row. -/
def buildMh (missing : List SongRow) : List (Digest × SongRow) :=
  missing.foldl mhStep []

/-- add_song_placeholder: the INSERT of a basic record for a new file;
    title is seeded from the filename, underscores replaced by spaces,
    extension stripped; metadata_status starts pending. The id models the
    AUTOINCREMENT value handed out by the store. -/
def add_song_placeholder (rowid : Nat) (path filename fmt : String) (fp : Option Digest) :
    SongRow :=
  { id := rowid, file_path := path, file_hash := fp, filename := filename,
    title := some (underscoreToSpace (splitext filename).1), format := fmt,
    metadata_status := "pending" }

/-- Accumulator of loop B over new_files: buffered statements, the
    missing_hashes dict, the next AUTOINCREMENT id, and the moved and
    added counters. -/
structure NewAcc where
  muts : List Mutation
  mh : List (Digest × SongRow)
  nextId : Nat
  moved : Nat
  added : Nat
deriving DecidableEq

/-- The else branch of loop B: insert a placeholder row and count added. -/
def addNew (acc : NewAcc) (path : String) (e : DiskEntry) : NewAcc :=
  { acc with
    muts := acc.muts ++ [.ins (add_song_placeholder acc.nextId path e.filename e.fmt e.fp)],
    nextId := acc.nextId + 1,
    added := acc.added + 1 }

/-- Loop B of scan_library for one new path: a non-null fingerprint found
    in missing_hashes reinterprets the file as a move of that row (update
    in place, remove the claimed fingerprint, count moved); otherwise the
    file is added. -/
def newStep (acc : NewAcc) (pe : String × DiskEntry) : NewAcc :=
  match pe.2.fp with
  | some h =>
    match dlookup acc.mh h with
    | some oldRow =>
      { acc with
        muts := acc.muts ++ [.updPath oldRow.id pe.1 pe.2.filename pe.2.fmt],
        mh := dremove acc.mh h,
        moved := acc.moved + 1 }
    | none => addNew acc pe.1 pe.2
  | none => addNew acc pe.1 pe.2

/-- The state of loop B after all new paths are processed. -/
def accBOf (cat : List SongRow) (disk : List (String × DiskEntry)) (nextId : Nat) : NewAcc :=
  (newOf cat disk).foldl newStep ⟨[], buildMh (missingOf cat disk), nextId, 0, 0⟩

/-- The full buffered statement list and statistics of one scan: loop A
    updates, loop B moves and inserts, then loop C deleting every row
    still held in missing_hashes. Loop D of the source iterates the
    path-only missing files and does nothing (its body is pass). -/
def scanPlan (cat : List SongRow) (nextId : Nat) (disk : List (String × DiskEntry)) :
    List Mutation × Nat × Stats :=
  let accB := accBOf cat disk nextId
  (mutsAOf cat disk ++ accB.muts ++ accB.mh.map (fun hr => Mutation.del hr.2.id),
   accB.nextId,
   { added := accB.added, moved := accB.moved, deleted := accB.mh.length,
     updated := (mutsAOf cat disk).length })

/-- scan_library: walk the tree, diff against the catalog, apply the
    buffered statements with the single commit, and return the new table,
    the next AUTOINCREMENT id and the statistics. -/
def scan_library (cat : List SongRow) (nextId : Nat) (walk : List DirEntry) :
    List SongRow × Nat × Stats :=
  let plan := scanPlan cat nextId (discover walk)
  (plan.1.foldl applyMutation cat, plan.2.1, plan.2.2)

/-- Modelled from the spec: the persistence engine is an external
    collaborator that provides atomic transactions (spec sections 1, 4.4
    step 8 and 7); the whole scan issues exactly one commit, so a commit
    failure discards the entire buffered batch and surfaces the error
    while the durable table keeps its pre-scan contents. -/
def scanTransaction (cat : List SongRow) (nextId : Nat) (walk : List DirEntry)
    (commitOk : Bool) : (List SongRow × Nat) × Except String Stats :=
  let plan := scanPlan cat nextId (discover walk)
  if commitOk then
    ((plan.1.foldl applyMutation cat, plan.2.1), Except.ok plan.2.2)
  else
    ((cat, nextId), Except.error "TransactionFailure: scan mutations rolled back")

-- ==========================================
-- DisasterRecoveryManager: create_backup_file and restore_from_file
-- ==========================================

/-- The strftime pattern used for snapshot names. -/
def BACKUP_FILENAME_FMT : String := "pikaraoke_backup_%Y%m%d_%H%M%S.db"

/-- External outcomes seen by create_backup_file: whether the backup
    directory already exists, whether os.makedirs succeeds when it does
    not, the strftime rendering of BACKUP_FILENAME_FMT at the current
    time, and whether the connect-backup-close copy succeeds. -/
structure BackupEnv where
  dirExists : Bool
  makedirsOk : Bool
  timestamp : String
  copyOk : Bool
deriving DecidableEq

/-- create_backup_file: ensure the backup directory, build the timestamped
    destination, hot-copy the live store. The Except error constructor
    models an exception escaping to the caller (os.makedirs runs outside
    the try block); ok none models the logged-and-returned None of a copy
    failure; the Bool result is whether the directory exists afterwards. -/
def create_backup_file (backup_dir : String) (env : BackupEnv) :
    Except String (Option String) × Bool :=
  if env.dirExists then
    (if env.copyOk then Except.ok (some (backup_dir ++ "/" ++ env.timestamp))
     else Except.ok none, true)
  else if env.makedirsOk then
    (if env.copyOk then Except.ok (some (backup_dir ++ "/" ++ env.timestamp))
     else Except.ok none, true)
  else
    (Except.error "os.makedirs failed", false)

/-- A file on disk as seen by restore_from_file: whether open succeeds,
    and its byte contents. -/
structure FsFile where
  readable : Bool
  bytes : List Nat
deriving DecidableEq

/-- The process state touched by restore: the file system (path to file),
    the canonical store path, and whether the connection is open. The
    live store contents are the bytes at dbPath. -/
structure StoreState where
  fs : List (String × FsFile)
  dbPath : String
  connOpen : Bool
deriving DecidableEq

/-- The 16-byte header sentinel bytes of a SQLite database file. -/
def SQLITE_SIG : List Nat := ("SQLite format 3".data.map Char.toNat)

/-- Whether the first list occurs contiguously inside the second,
    mirroring the Python bytes membership test. -/
def bytesContain (needle : List Nat) : List Nat → Bool
  | [] => needle.isEmpty
  | hay@(_ :: rest) => needle.isPrefixOf hay || bytesContain needle rest

/-- restore_from_file: validate existence and the 16-byte signature
    before touching live state; then close the connection, best-effort
    remove the WAL and SHM side files, copy the upload over the canonical
    path and reconnect. sideRemoveOk, copyOk and reconnectOk are the
    external outcomes of those steps (side-file removal errors are
    swallowed either way). -/
def restore_from_file (s : StoreState) (uploaded : String)
    (sideRemoveOk copyOk reconnectOk : Bool) : StoreState × (Bool × String) :=
  match dlookup s.fs uploaded with
  | none => (s, (false, "Upload file not found"))
  | some f =>
    if f.readable then
      if bytesContain SQLITE_SIG (f.bytes.take 16) then
        let s1 : StoreState := { s with connOpen := false }
        let s2 : StoreState :=
          if sideRemoveOk then
            { s1 with fs := [s.dbPath, s.dbPath ++ "-wal", s.dbPath ++ "-shm"].foldl dremove s1.fs }
          else s1
        if copyOk then
          ({ s2 with fs := dinsert s2.fs s.dbPath f, connOpen := true },
           (true, "Restore successful. Database updated."))
        else
          ({ s2 with connOpen := reconnectOk }, (false, "Restore failed"))
      else (s, (false, "Invalid file format. Not a SQLite database."))
    else (s, (false, "File validation error"))

-- ==========================================
-- Concrete scenario data used by closed statements
-- ==========================================

/-- A catalog row whose file is gone from disk and whose stored
    fingerprint is null. -/
def exRowGone : SongRow :=
  { id := 1, file_path := "gone.mp4", file_hash := none, filename := "gone.mp4",
    title := some "gone", format := "MP4", metadata_status := "pending" }

/-- First of two catalog rows sharing one fingerprint. -/
def exRowA : SongRow :=
  { id := 1, file_path := "a.mp4", file_hash := some (5, [1]), filename := "a.mp4",
    title := some "a", format := "MP4", metadata_status := "pending" }

/-- Second of two catalog rows sharing one fingerprint. -/
def exRowB : SongRow :=
  { id := 2, file_path := "b.mp4", file_hash := some (5, [1]), filename := "b.mp4",
    title := some "b", format := "MP4", metadata_status := "pending" }

/-- An enriched catalog row whose on-disk content then changes. -/
def exRowEnriched : SongRow :=
  { id := 1, file_path := "a.mp4", file_hash := some (1, [0]), filename := "a.mp4",
    title := some "a", format := "MP4", metadata_status := "enriched" }

/-- The entry created for a lone video file song.mp4. -/
def exRowMp4 : SongRow :=
  { id := 1, file_path := "song.mp4", file_hash := some (7, [3]),
    filename := "song.mp4", title := some "song", format := "MP4",
    metadata_status := "pending" }

/-- A walk of one directory holding song.mp3 with companion SONG.CDG. -/
def exWalkCdg : List DirEntry :=
  [⟨"", [⟨"song.mp3", true, 5, [1, 2]⟩, ⟨"SONG.CDG", true, 3, [9]⟩]⟩]

/-- A walk of one directory holding song.mp4 alone. -/
def exWalkMp4 : List DirEntry := [⟨"", [⟨"song.mp4", true, 7, [3]⟩]⟩]

/-- The same directory after a song.ass subtitle companion appears. -/
def exWalkMp4Ass : List DirEntry :=
  [⟨"", [⟨"song.mp4", true, 7, [3]⟩, ⟨"song.ass", true, 1, [0]⟩]⟩]

/-- The walk seen when the content at a.mp4 changed in place. -/
def exWalkChanged : List DirEntry := [⟨"", [⟨"a.mp4", true, 2, [0]⟩]⟩]

/-- A walk holding the bytes of exRowA relocated to a2.mp4. -/
def exWalkMoved : List DirEntry := [⟨"", [⟨"a2.mp4", true, 5, [1]⟩]⟩]

/-- A store state holding a live database and a non-database upload. -/
def exStore : StoreState :=
  { fs := [("up.bin", ⟨true, [1, 2, 3]⟩), ("live.db", ⟨true, [83, 81, 76]⟩)],
    dbPath := "live.db", connOpen := true }

/-- The uploaded non-database file inside exStore. -/
def exUpload : FsFile := ⟨true, [1, 2, 3]⟩

/-- A loop-B accumulator holding one move candidate. -/
def exAcc : NewAcc :=
  { muts := [], mh := [((5, [1]), exRowA)], nextId := 7, moved := 0, added := 0 }

/-- The disk entry of the relocated copy of exRowA. -/
def exMovedEntry : DiskEntry := ⟨"a2.mp4", "MP4", some (5, [1])⟩

/-- A disk entry whose fingerprint read failed. -/
def exNullEntry : DiskEntry := ⟨"n.mp4", "MP4", none⟩

/-- A directory in which n.mp4 is classified but unreadable. -/
def exDirUnreadable : DirEntry := ⟨"", [⟨"n.mp4", false, 4, [8]⟩]⟩

/-- The unreadable file inside exDirUnreadable. -/
def exUnreadableFile : DiskFile := ⟨"n.mp4", false, 4, [8]⟩

/-- A backup environment in which the destination directory is missing
    and os.makedirs fails. -/
def exBackupEnvBad : BackupEnv :=
  ⟨false, false, "pikaraoke_backup_20260101_000000.db", true⟩

/-- A backup environment in which the directory exists but the hot copy
    fails. -/
def exBackupEnvCopyFail : BackupEnv :=
  ⟨true, true, "pikaraoke_backup_20260101_000000.db", false⟩

-- ==========================================
-- Analysis vocabulary for the scan transaction
-- ==========================================

/-- The row id a buffered statement addresses or creates. -/
def mutTouchId : Mutation → Nat
  | .updContent i _ _ _ => i
  | .updPath i _ _ _ => i
  | .ins row => row.id
  | .del i => i

/-- The rows of a table carrying a given id. -/
def rowsWithId (cat : List SongRow) (i : Nat) : List SongRow :=
  cat.filter (fun r => decide (r.id = i))

/-- How one buffered statement transforms the rows of a fixed id. -/
def evolveId (i : Nat) (rows : List SongRow) (m : Mutation) : List SongRow :=
  match m with
  | .updContent j fp fmt fn =>
    rows.map (fun r => if r.id = j then { r with file_hash := fp, format := fmt, filename := fn } else r)
  | .updPath j p fn fmt =>
    rows.map (fun r => if r.id = j then { r with file_path := p, filename := fn, format := fmt } else r)
  | .ins row => rows ++ (if row.id = i then [row] else [])
  | .del j => if j = i then [] else rows

/-- Every row of the list carries the id. -/
def allId (i : Nat) (rows : List SongRow) : Prop :=
  ∀ r ∈ rows, r.id = i

/-- Invariant of loop B over new files, relative to the initial
    missing_hashes dict mh0, the pre-scan AUTOINCREMENT id nextId0 and
    the full new-path list npaths: the candidate map only shrinks and
    keeps distinct keys, ids only grow, rows still in the map are
    untouched by every buffered statement, every statement is a move
    of an mh0 row or a placeholder insert of a processed path with a
    fresh id, and no two statements address the same id. -/
structure BInv (mh0 : List (Digest × SongRow)) (nextId0 : Nat)
    (npaths : List (String × DiskEntry)) (acc : NewAcc) : Prop where
  mhSub : ∀ x ∈ acc.mh, x ∈ mh0
  mhNodup : (dkeys acc.mh).Nodup
  nidGe : nextId0 ≤ acc.nextId
  untouched : ∀ x ∈ acc.mh, ∀ m ∈ acc.muts, mutTouchId m ≠ x.2.id
  shape : ∀ m ∈ acc.muts,
    (∃ x ∈ mh0, ∃ q fn fm, m = Mutation.updPath x.2.id q fn fm) ∨
    (∃ pe ∈ npaths, ∃ j, nextId0 ≤ j ∧ j < acc.nextId ∧
      m = Mutation.ins (add_song_placeholder j pe.1 pe.2.filename pe.2.fmt pe.2.fp))
  touchNodup : (acc.muts.map mutTouchId).Nodup

/-- A catalog is synchronized with a disk dict when every disk path is
    stored, every stored row at a disk path carries that disk fingerprint
    and format, and every stored row off the disk carries a null
    fingerprint. -/
def Synced (disk : List (String × DiskEntry)) (cat : List SongRow) : Prop :=
  (∀ pe ∈ disk, ∃ r ∈ cat, r.file_path = pe.1) ∧
  (∀ r ∈ cat, ∀ e, dlookup disk r.file_path = some e →
    r.file_hash = e.fp ∧ r.format = e.fmt) ∧
  (∀ r ∈ cat, dlookup disk r.file_path = none → r.file_hash = none)

-- ==========================================
-- Lemma library: association lists
-- ==========================================

@[simp] theorem dlookup_nil {α β : Type} [DecidableEq α] (k : α) :
    dlookup ([] : List (α × β)) k = none := rfl

@[simp] theorem dlookup_cons {α β : Type} [DecidableEq α] (k0 : α) (v0 : β) (rest : List (α × β))
    (k : α) :
    dlookup ((k0, v0) :: rest) k = if k0 = k then some v0 else dlookup rest k := rfl

theorem dlookup_dinsert {α β : Type} [DecidableEq α] (m : List (α × β)) (k : α) (v : β) (k1 : α) :
    dlookup (dinsert m k v) k1 = if k = k1 then some v else dlookup m k1 := by
  induction m with
  | nil => simp [dinsert, dlookup]
  | cons hd tl ih =>
    obtain ⟨k0, v0⟩ := hd
    by_cases h0 : k0 = k
    · rw [show dinsert ((k0, v0) :: tl) k v = (k, v) :: tl from by simp [dinsert, h0]]
      by_cases h1 : k = k1
      · simp [dlookup, h1]
      · have h2 : ¬ k0 = k1 := fun hh => h1 (h0.symm.trans hh)
        simp [dlookup, h1, h2]
    · rw [show dinsert ((k0, v0) :: tl) k v = (k0, v0) :: dinsert tl k v from by
        simp [dinsert, h0]]
      by_cases h1 : k0 = k1
      · have h2 : ¬ k = k1 := fun hh => h0 (h1.trans hh.symm)
        simp [dlookup, h1, h2]
      · simp [dlookup, h1, ih]

theorem dlookup_dremove {α β : Type} [DecidableEq α] (m : List (α × β)) (k : α) (k1 : α) :
    dlookup (dremove m k) k1 = if k = k1 then none else dlookup m k1 := by
  induction m with
  | nil => simp [dremove]
  | cons hd tl ih =>
    obtain ⟨k0, v0⟩ := hd
    by_cases h0 : k0 = k
    · rw [show dremove ((k0, v0) :: tl) k = dremove tl k from by simp [dremove, h0]]
      by_cases h1 : k = k1
      · subst h1
        simp [ih]
      · have h2 : ¬ k0 = k1 := fun hh => h1 (h0.symm.trans hh)
        simp [ih, h1, dlookup, h2]
    · rw [show dremove ((k0, v0) :: tl) k = (k0, v0) :: dremove tl k from by
        simp [dremove, h0]]
      by_cases h1 : k0 = k1
      · have h2 : ¬ k = k1 := fun hh => h0 (h1.trans hh.symm)
        simp [dlookup, h1, h2]
      · simp [dlookup, h1, ih]

theorem mem_of_dlookup_eq_some {α β : Type} [DecidableEq α] {m : List (α × β)} {k : α} {v : β}
    (h : dlookup m k = some v) : (k, v) ∈ m := by
  induction m with
  | nil => simp [dlookup] at h
  | cons hd tl ih =>
    obtain ⟨k0, v0⟩ := hd
    by_cases h0 : k0 = k
    · subst h0
      rw [dlookup_cons, if_pos rfl] at h
      injection h with h
      subst h
      exact List.mem_cons_self _ _
    · rw [dlookup_cons, if_neg h0] at h
      exact List.mem_cons_of_mem _ (ih h)

theorem dlookup_eq_some_of_mem {α β : Type} [DecidableEq α] {m : List (α × β)} {k : α} {v : β}
    (hnd : (dkeys m).Nodup) (hmem : (k, v) ∈ m) : dlookup m k = some v := by
  induction m with
  | nil => simp at hmem
  | cons hd tl ih =>
    obtain ⟨k0, v0⟩ := hd
    simp only [dkeys, List.map_cons, List.nodup_cons] at hnd
    rcases List.mem_cons.mp hmem with h | h
    · rw [Prod.mk.injEq] at h
      obtain ⟨rfl, rfl⟩ := h
      simp [dlookup]
    · have hk : k0 ≠ k := by
        intro heq
        subst heq
        exact hnd.1 (List.mem_map.mpr ⟨(k0, v), h, rfl⟩)
      simp [dlookup, if_neg hk]
      exact ih hnd.2 h

theorem mem_dinsert {α β : Type} [DecidableEq α] {m : List (α × β)} {k : α} {v : β} {x : α × β}
    (h : x ∈ dinsert m k v) : x = (k, v) ∨ x ∈ m := by
  induction m with
  | nil => simpa [dinsert] using h
  | cons hd tl ih =>
    obtain ⟨k0, v0⟩ := hd
    by_cases h0 : k0 = k
    · subst h0
      simp [dinsert] at h
      rcases h with h | h
      · exact Or.inl (by simp [h])
      · exact Or.inr (List.mem_cons_of_mem _ h)
    · simp [dinsert, if_neg h0] at h
      rcases h with h | h
      · exact Or.inr (List.mem_cons.mpr (Or.inl (by simp [h])))
      · rcases ih h with h1 | h1
        · exact Or.inl h1
        · exact Or.inr (List.mem_cons_of_mem _ h1)

theorem mem_dremove {α β : Type} [DecidableEq α] {m : List (α × β)} {k : α} {x : α × β}
    (h : x ∈ dremove m k) : x ∈ m ∧ x.1 ≠ k := by
  induction m with
  | nil => simp [dremove] at h
  | cons hd tl ih =>
    obtain ⟨k0, v0⟩ := hd
    by_cases h0 : k0 = k
    · subst h0
      simp [dremove] at h
      obtain ⟨h1, h2⟩ := ih h
      exact ⟨List.mem_cons_of_mem _ h1, h2⟩
    · simp [dremove, if_neg h0] at h
      rcases h with h | h
      · refine ⟨List.mem_cons.mpr (Or.inl (by simp [h])), ?_⟩
        simp [h, h0]
      · obtain ⟨h1, h2⟩ := ih h
        exact ⟨List.mem_cons_of_mem _ h1, h2⟩

theorem mem_dkeys {α β : Type} [DecidableEq α] {m : List (α × β)} {k1 : α} :
    k1 ∈ dkeys m ↔ ∃ v, (k1, v) ∈ m := by
  simp only [dkeys, List.mem_map]
  constructor
  · rintro ⟨⟨a, b⟩, hab, rfl⟩
    exact ⟨b, hab⟩
  · rintro ⟨v, hv⟩
    exact ⟨(k1, v), hv, rfl⟩

theorem mem_dkeys_dinsert {α β : Type} [DecidableEq α] {m : List (α × β)} {k k1 : α} {v : β}
    (h : k1 ∈ dkeys (dinsert m k v)) : k1 = k ∨ k1 ∈ dkeys m := by
  obtain ⟨w, hw⟩ := mem_dkeys.mp h
  rcases mem_dinsert hw with h1 | h1
  · exact Or.inl (congrArg Prod.fst h1)
  · exact Or.inr (mem_dkeys.mpr ⟨w, h1⟩)

theorem dkeys_dinsert_nodup {α β : Type} [DecidableEq α] {m : List (α × β)} {k : α} {v : β}
    (h : (dkeys m).Nodup) : (dkeys (dinsert m k v)).Nodup := by
  induction m with
  | nil => simp [dinsert, dkeys]
  | cons hd tl ih =>
    obtain ⟨k0, v0⟩ := hd
    simp only [dkeys, List.map_cons, List.nodup_cons] at h
    by_cases h0 : k0 = k
    · rw [show dinsert ((k0, v0) :: tl) k v = (k, v) :: tl from by simp [dinsert, h0]]
      simp only [dkeys, List.map_cons, List.nodup_cons]
      exact ⟨h0 ▸ h.1, h.2⟩
    · rw [show dinsert ((k0, v0) :: tl) k v = (k0, v0) :: dinsert tl k v from by
        simp [dinsert, h0]]
      simp only [dkeys, List.map_cons, List.nodup_cons]
      refine ⟨?_, ih h.2⟩
      intro hin
      rcases mem_dkeys_dinsert hin with h1 | h1
      · exact h0 h1
      · exact h.1 h1

theorem mem_dkeys_dremove {α β : Type} [DecidableEq α] {m : List (α × β)} {k k1 : α}
    (h : k1 ∈ dkeys (dremove m k)) : k1 ∈ dkeys m := by
  obtain ⟨w, hw⟩ := mem_dkeys.mp h
  exact mem_dkeys.mpr ⟨w, (mem_dremove hw).1⟩

theorem dkeys_dremove_nodup {α β : Type} [DecidableEq α] {m : List (α × β)} {k : α}
    (h : (dkeys m).Nodup) : (dkeys (dremove m k)).Nodup := by
  induction m with
  | nil => simp [dremove, dkeys]
  | cons hd tl ih =>
    obtain ⟨k0, v0⟩ := hd
    simp only [dkeys, List.map_cons, List.nodup_cons] at h
    by_cases h0 : k0 = k
    · rw [show dremove ((k0, v0) :: tl) k = dremove tl k from by simp [dremove, h0]]
      exact ih h.2
    · rw [show dremove ((k0, v0) :: tl) k = (k0, v0) :: dremove tl k from by
        simp [dremove, h0]]
      simp only [dkeys, List.map_cons, List.nodup_cons]
      exact ⟨fun hin => h.1 (mem_dkeys_dremove hin), ih h.2⟩

-- ==========================================
-- Lemma library: strings and the walk
-- ==========================================

theorem strData_append (s t : String) : (s ++ t).data = s.data ++ t.data := by
  cases s
  cases t
  rfl

theorem joinRel_inj (root : String) {a b : String}
    (h : joinRel root a = joinRel root b) : a = b := by
  by_cases hr : root = ""
  · simpa [joinRel, hr] using h
  · simp only [joinRel, if_neg hr] at h
    have h2 := congrArg String.data h
    simp only [strData_append] at h2
    have h3 := List.append_cancel_left h2
    cases a
    cases b
    exact congrArg String.mk h3

theorem dlookup_discoverStep_ne (relRoot : String) (fl : List String)
    (acc : List (String × DiskEntry)) (f : DiskFile) (k : String)
    (hne : joinRel relRoot f.name ≠ k) :
    dlookup (discoverStep relRoot fl acc f) k = dlookup acc k := by
  unfold discoverStep
  split
  · rfl
  · split
    · rw [dlookup_dinsert]
      simp [hne]
    · rfl

theorem dlookup_discover_foldl_ne (relRoot : String) (fl : List String)
    (l : List DiskFile) (acc : List (String × DiskEntry)) (k : String)
    (h : ∀ g ∈ l, joinRel relRoot g.name ≠ k) :
    dlookup (l.foldl (discoverStep relRoot fl) acc) k = dlookup acc k := by
  induction l generalizing acc with
  | nil => rfl
  | cons g rest ih =>
    rw [List.foldl_cons, ih _ (fun x hx => h x (List.mem_cons_of_mem _ hx)),
        dlookup_discoverStep_ne _ _ _ _ _ (h g (List.mem_cons_self _ _))]

theorem dlookup_discover_foldl_mem (relRoot : String) (fl : List String)
    (l : List DiskFile) (acc : List (String × DiskEntry)) (f : DiskFile) (hf : f ∈ l)
    (hnd : (l.map DiskFile.name).Nodup)
    (hhid : startsWithDot f.name = false) (fmt : String)
    (hcls : classify fl f.name = some fmt) :
    dlookup (l.foldl (discoverStep relRoot fl) acc) (joinRel relRoot f.name) =
      some ⟨f.name, fmt, get_fingerprint f⟩ := by
  induction l generalizing acc with
  | nil => cases hf
  | cons g rest ih =>
    simp only [List.map_cons, List.nodup_cons] at hnd
    rcases List.mem_cons.mp hf with rfl | hf2
    · rw [List.foldl_cons,
        dlookup_discover_foldl_ne _ _ _ _ _ (fun x hx heq =>
          hnd.1 (List.mem_map.mpr ⟨x, hx, joinRel_inj relRoot heq⟩))]
      unfold discoverStep
      rw [if_neg (by simp [hhid]), hcls]
      rw [dlookup_dinsert, if_pos rfl]
    · rw [List.foldl_cons]
      exact ih _ hf2 hnd.2

theorem buildMh_sound_aux (C : SongRow → Digest → Prop) (l : List SongRow)
    (m0 : List (Digest × SongRow))
    (h0 : ∀ h r, dlookup m0 h = some r → C r h)
    (hl : ∀ r ∈ l, ∀ h, r.file_hash = some h → C r h) :
    ∀ h r, dlookup (l.foldl mhStep m0) h = some r → C r h := by
  induction l generalizing m0 with
  | nil => exact h0
  | cons x rest ih =>
    rw [List.foldl_cons]
    apply ih
    · intro h r hr
      unfold mhStep at hr
      split at hr
      · next hx heq =>
        rw [dlookup_dinsert] at hr
        by_cases hhh : hx = h
        · rw [if_pos hhh] at hr
          injection hr with hr
          subst hr
          exact hl x (List.mem_cons_self _ _) h (hhh ▸ heq)
        · rw [if_neg hhh] at hr
          exact h0 _ _ hr
      · exact h0 _ _ hr
    · intro r hr h hh
      exact hl r (List.mem_cons_of_mem _ hr) h hh

theorem buildMh_sound {missing : List SongRow} {h : Digest} {r : SongRow}
    (hmh : dlookup (buildMh missing) h = some r) : r ∈ missing ∧ r.file_hash = some h :=
  buildMh_sound_aux (fun r h => r ∈ missing ∧ r.file_hash = some h) missing []
    (by simp) (fun r hr h hh => ⟨hr, hh⟩) h r hmh

-- ==========================================
-- Claims
-- ==========================================

/-- C1: the claim states that after a scan every catalog entry whose
    relativePath is gone from disk and that is not claimed as a move
    target is deleted, including entries with a null stored fingerprint,
    and that the deleted count covers them. The code contradicts this and
    its own cleanup comment: with one catalog row at path gone.mp4 whose
    fingerprint is null and an empty disk, the scan deletes nothing,
    reports zero deletions, and the row is still readable afterwards. -/
theorem c1_missing_null_fingerprint_entry_survives_scan :
    scan_library [exRowGone] 2 [] = ([exRowGone], 2, zeroStats) ∧
    exRowGone.file_hash = none ∧ discover [] = [] := by decide

/-- C2 counterexample: scanning twice with no disk change is claimed to
    yield all-zero statistics and an unchanged catalog. With two rows
    sharing one fingerprint and an empty disk, the first scan deletes only
    the row retained in missing_hashes; the second scan deletes the
    shadowed duplicate, reporting one deletion and shrinking the catalog. -/
theorem c2_duplicate_fingerprint_second_scan_not_zero :
    scan_library [exRowA, exRowB] 3 [] = ([exRowA], 3, ⟨0, 0, 1, 0⟩) ∧
    scan_library (scan_library [exRowA, exRowB] 3 []).1
        (scan_library [exRowA, exRowB] 3 []).2.1 [] = ([], 3, ⟨0, 0, 1, 0⟩) ∧
    (⟨0, 0, 1, 0⟩ : Stats) ≠ zeroStats := by decide

/-- C3: a new disk path whose non-null fingerprint is found in
    missing_hashes is handled as a move: exactly one UPDATE addressed at
    the missing row is issued, rewriting relativePath, filename and format
    in place while id, stored fingerprint and enrichment status survive;
    the moved counter increments while added stays; and the fingerprint is
    removed from the candidate map so a second disk file can never claim
    the same missing entry. -/
theorem c3_move_claims_missing_entry_in_place
    (acc : NewAcc) (p : String) (e : DiskEntry) (h : Digest) (oldRow : SongRow)
    (hfp : e.fp = some h) (hmh : dlookup acc.mh h = some oldRow) :
    newStep acc (p, e) =
      { acc with
        muts := acc.muts ++ [.updPath oldRow.id p e.filename e.fmt],
        mh := dremove acc.mh h,
        moved := acc.moved + 1 } ∧
    dlookup (newStep acc (p, e)).mh h = none ∧
    (∀ cat : List SongRow, ∀ r ∈ cat, r.id = oldRow.id →
      { r with file_path := p, filename := e.filename, format := e.fmt } ∈
        applyMutation cat (.updPath oldRow.id p e.filename e.fmt)) := by
  refine ⟨?_, ?_, ?_⟩
  · simp [newStep, hfp, hmh]
  · simp [newStep, hfp, hmh, dlookup_dremove]
  · intro cat r hr hid
    simp only [applyMutation]
    exact List.mem_map.mpr ⟨r, hr, by rw [if_pos hid]⟩

/-- Witness for C3 at a concrete accumulator and moved file. -/
theorem c3_move_witness :
    newStep exAcc ("a2.mp4", exMovedEntry) =
      { exAcc with
        muts := [.updPath exRowA.id "a2.mp4" "a2.mp4" "MP4"],
        mh := [],
        moved := 1 } ∧
    dlookup (newStep exAcc ("a2.mp4", exMovedEntry)).mh (5, [1]) = none ∧
    (∀ cat : List SongRow, ∀ r ∈ cat, r.id = exRowA.id →
      { r with file_path := "a2.mp4", filename := "a2.mp4", format := "MP4" } ∈
        applyMutation cat (.updPath exRowA.id "a2.mp4" "a2.mp4" "MP4")) := by
  have hm := c3_move_claims_missing_entry_in_place exAcc "a2.mp4" exMovedEntry (5, [1])
    exRowA (by decide) (by decide)
  refine ⟨?_, ?_, ?_⟩
  · rw [hm.1]
    decide
  · exact hm.2.1
  · have heq : Mutation.updPath exRowA.id "a2.mp4" "a2.mp4" "MP4" =
        Mutation.updPath exRowA.id "a2.mp4" exMovedEntry.filename exMovedEntry.fmt := by decide
    rw [heq]
    exact hm.2.2

/-- C4: a restore whose upload exists and opens but whose 16 leading
    bytes do not contain the SQLite container signature fails early with
    the descriptive message and returns the state unchanged: the
    connection stays open, no side file is removed, no copy happens, and
    the live store bytes at dbPath are untouched. -/
theorem c4_restore_invalid_signature_leaves_store_untouched
    (s : StoreState) (uploaded : String) (f : FsFile) (a b c : Bool)
    (hlook : dlookup s.fs uploaded = some f)
    (hread : f.readable = true)
    (hsig : bytesContain SQLITE_SIG (f.bytes.take 16) = false) :
    restore_from_file s uploaded a b c =
      (s, (false, "Invalid file format. Not a SQLite database.")) := by
  simp [restore_from_file, hlook, hread, hsig]

/-- Witness for C4 at a concrete store and a three-byte upload. -/
theorem c4_restore_invalid_signature_witness :
    dlookup exStore.fs "up.bin" = some exUpload ∧
    restore_from_file exStore "up.bin" true true true =
      (exStore, (false, "Invalid file format. Not a SQLite database.")) :=
  ⟨by decide,
   c4_restore_invalid_signature_leaves_store_untouched exStore "up.bin" exUpload
     true true true (by decide) (by decide) (by decide)⟩

/-- C6: the buffered mutations of a scan commit as one unit; when the
    commit fails, the durable catalog and the next row id are exactly the
    pre-scan ones, the error is surfaced, and a retry with a working
    commit produces exactly the result scan_library would have produced
    directly, so the failed scan left nothing behind. -/
theorem c6_scan_commit_failure_rolls_back
    (cat : List SongRow) (nextId : Nat) (walk : List DirEntry) :
    scanTransaction cat nextId walk false =
      ((cat, nextId), Except.error "TransactionFailure: scan mutations rolled back") ∧
    scanTransaction cat nextId walk true =
      (((scan_library cat nextId walk).1, (scan_library cat nextId walk).2.1),
        Except.ok (scan_library cat nextId walk).2.2) := by
  exact ⟨rfl, rfl⟩

/-- C7: pair classification. A directory with song.mp3 and a
    case-insensitively matching SONG.CDG companion yields exactly one
    catalog entry carrying the CDG format; a lone song.mp4 yields one
    entry with format MP4; adding song.ass and rescanning updates that
    same entry (same id, no insertion) to MP4+ASS with one update and
    zero additions. -/
theorem c7_format_pairing_scenarios :
    scan_library [] 1 exWalkCdg =
      ([{ id := 1, file_path := "song.mp3", file_hash := some (5, [1, 2]),
          filename := "song.mp3", title := some "song", format := "CDG",
          metadata_status := "pending" }], 2, ⟨1, 0, 0, 0⟩) ∧
    scan_library [] 1 exWalkMp4 = ([exRowMp4], 2, ⟨1, 0, 0, 0⟩) ∧
    scan_library [exRowMp4] 2 exWalkMp4Ass =
      ([{ exRowMp4 with format := "MP4+ASS" }], 2, ⟨0, 0, 0, 1⟩) := by decide

/-- C9 counterexample: the claim states that any I/O failure makes
    snapshot return no value and that no exception ever escapes to the
    caller. The directory creation step runs outside the try block: when
    the backup directory is absent and os.makedirs fails, the exception
    escapes instead of returning None. -/
theorem c9_makedirs_failure_escapes :
    create_backup_file "backups" exBackupEnvBad =
      (Except.error "os.makedirs failed", false) := rfl

/-- C9 as amended: when the destination directory exists or its creation
    succeeds, snapshot returns the timestamped destination path on
    success and returns no value (without an escaping exception) when the
    hot copy fails; the directory exists afterwards. A failure of
    os.makedirs itself, however, escapes as an exception. -/
theorem c9_snapshot_ok_when_directory_available
    (backup_dir : String) (env : BackupEnv)
    (h : env.dirExists = true ∨ env.makedirsOk = true) :
    create_backup_file backup_dir env =
      (Except.ok (if env.copyOk then some (backup_dir ++ "/" ++ env.timestamp) else none),
       true) := by
  rcases h with h | h
  · cases hc : env.copyOk <;> simp [create_backup_file, h, hc]
  · cases hd : env.dirExists <;> cases hc : env.copyOk <;>
      simp [create_backup_file, h, hc, hd]

/-- Witness for C9 as amended, at an existing directory with a failing
    hot copy: the result is ok-none, not an escaping exception. -/
theorem c9_snapshot_witness :
    (exBackupEnvCopyFail.dirExists = true ∨ exBackupEnvCopyFail.makedirsOk = true) ∧
    create_backup_file "backups" exBackupEnvCopyFail =
      (Except.ok (if exBackupEnvCopyFail.copyOk then
        some ("backups" ++ "/" ++ exBackupEnvCopyFail.timestamp) else none), true) :=
  ⟨Or.inl (by decide),
   c9_snapshot_ok_when_directory_available "backups" exBackupEnvCopyFail (Or.inl (by decide))⟩

/-- C10: a restore whose upload path does not exist on disk returns the
    not-found failure before the signature check can run, and the store
    state, its connection flag, and every file are completely untouched. -/
theorem c10_restore_missing_upload_untouched
    (s : StoreState) (uploaded : String) (a b c : Bool)
    (h : dlookup s.fs uploaded = none) :
    restore_from_file s uploaded a b c = (s, (false, "Upload file not found")) := by
  simp [restore_from_file, h]

/-- Witness for C10 at a concrete store and an absent path. -/
theorem c10_restore_missing_upload_witness :
    dlookup exStore.fs "absent.db" = none ∧
    restore_from_file exStore "absent.db" true true true =
      (exStore, (false, "Upload file not found")) :=
  ⟨by decide,
   c10_restore_missing_upload_untouched exStore "absent.db" true true true (by decide)⟩

/-- C8: an unreadable classified file does not fail the scan: its
    fingerprint is None, the walk still records the file in the disk dict
    (so it is added or kept rather than treated as absent), and a null
    fingerprint never participates in move detection on either side: a
    new path without fingerprint is always inserted (moved and the
    candidate map untouched), and every row reachable in missing_hashes
    carries a non-null stored fingerprint, so null-fingerprint rows are
    never move sources. -/
theorem c8_unfingerprinted_never_move_matched
    (f : DiskFile) (hun : f.readable = false)
    (acc0 : List (String × DiskEntry)) (d : DirEntry)
    (hf : f ∈ d.files) (hnames : (d.files.map DiskFile.name).Nodup)
    (hhid : startsWithDot f.name = false) (fmt : String)
    (hcls : classify (d.files.map (fun g => strLower g.name)) f.name = some fmt)
    (acc : NewAcc) (p : String) (e : DiskEntry) (hnofp : e.fp = none)
    (missing : List SongRow) (h : Digest) (r : SongRow)
    (hmh : dlookup (buildMh missing) h = some r) :
    get_fingerprint f = none ∧
    dlookup (discoverDir acc0 d) (joinRel d.relRoot f.name) = some ⟨f.name, fmt, none⟩ ∧
    newStep acc (p, e) = addNew acc p e ∧
    (newStep acc (p, e)).mh = acc.mh ∧
    (newStep acc (p, e)).moved = acc.moved ∧
    (newStep acc (p, e)).added = acc.added + 1 ∧
    r.file_hash = some h := by
  have hfp : get_fingerprint f = none := by simp [get_fingerprint, hun]
  refine ⟨hfp, ?_, ?_, ?_, ?_, ?_, (buildMh_sound hmh).2⟩
  · have hrec := dlookup_discover_foldl_mem d.relRoot
      (d.files.map (fun g => strLower g.name)) d.files acc0 f hf hnames hhid fmt hcls
    rw [hfp] at hrec
    exact hrec
  · simp [newStep, hnofp]
  · simp [newStep, addNew, hnofp]
  · simp [newStep, addNew, hnofp]
  · simp [newStep, addNew, hnofp]

/-- Witness for C8 at an unreadable n.mp4 and a one-candidate map. -/
theorem c8_unfingerprinted_witness :
    (exUnreadableFile.readable = false ∧
      exUnreadableFile ∈ exDirUnreadable.files ∧
      classify (exDirUnreadable.files.map (fun g => strLower g.name))
        exUnreadableFile.name = some "MP4" ∧
      exNullEntry.fp = none ∧
      dlookup (buildMh [exRowA]) (5, [1]) = some exRowA) ∧
    (get_fingerprint exUnreadableFile = none ∧
      dlookup (discoverDir [] exDirUnreadable)
        (joinRel exDirUnreadable.relRoot exUnreadableFile.name) =
          some ⟨exUnreadableFile.name, "MP4", none⟩ ∧
      newStep exAcc ("n.mp4", exNullEntry) = addNew exAcc "n.mp4" exNullEntry ∧
      (newStep exAcc ("n.mp4", exNullEntry)).mh = exAcc.mh ∧
      (newStep exAcc ("n.mp4", exNullEntry)).moved = exAcc.moved ∧
      (newStep exAcc ("n.mp4", exNullEntry)).added = exAcc.added + 1 ∧
      exRowA.file_hash = some (5, [1])) :=
  ⟨⟨by decide, by decide, by decide, by decide, by decide⟩,
   c8_unfingerprinted_never_move_matched exUnreadableFile (by decide) [] exDirUnreadable
     (by decide) (by decide) (by decide) "MP4" (by decide) exAcc "n.mp4" exNullEntry
     (by decide) [exRowA] (5, [1]) exRowA (by decide)⟩

-- ==========================================
-- Lemma library: row evolution under buffered statements
-- ==========================================

theorem mem_rowsWithId {cat : List SongRow} {i : Nat} {r : SongRow} :
    r ∈ rowsWithId cat i ↔ r ∈ cat ∧ r.id = i := by
  simp [rowsWithId, List.mem_filter]

theorem allId_rowsWithId (cat : List SongRow) (i : Nat) : allId i (rowsWithId cat i) :=
  fun _ hr => (mem_rowsWithId.mp hr).2

theorem rowsWithId_subset {cat : List SongRow} {i : Nat} {r : SongRow}
    (h : r ∈ rowsWithId cat i) : r ∈ cat :=
  (mem_rowsWithId.mp h).1

theorem self_mem_rowsWithId {cat : List SongRow} {r : SongRow} (h : r ∈ cat) :
    r ∈ rowsWithId cat r.id :=
  mem_rowsWithId.mpr ⟨h, rfl⟩

theorem rowsWithId_cons (x : SongRow) (rest : List SongRow) (i : Nat) :
    rowsWithId (x :: rest) i =
      if x.id = i then x :: rowsWithId rest i else rowsWithId rest i := by
  simp only [rowsWithId, List.filter_cons]
  by_cases h : x.id = i <;> simp [h]

theorem rowsWithId_eq_nil {cat : List SongRow} {i : Nat} (h : ∀ r ∈ cat, r.id ≠ i) :
    rowsWithId cat i = [] := by
  induction cat with
  | nil => rfl
  | cons x rest ih =>
    rw [rowsWithId_cons, if_neg (h x (List.mem_cons_self _ _)),
      ih (fun r hr => h r (List.mem_cons_of_mem _ hr))]

theorem rowsWithId_eq_single {cat : List SongRow} (hids : (cat.map SongRow.id).Nodup)
    {r : SongRow} (hr : r ∈ cat) : rowsWithId cat r.id = [r] := by
  induction cat with
  | nil => cases hr
  | cons x rest ih =>
    simp only [List.map_cons, List.nodup_cons] at hids
    rcases List.mem_cons.mp hr with rfl | hr2
    · rw [rowsWithId_cons, if_pos rfl,
        rowsWithId_eq_nil (fun r2 hr2 he => hids.1 (List.mem_map.mpr ⟨r2, hr2, he⟩))]
    · have hne : x.id ≠ r.id := fun he =>
        hids.1 (List.mem_map.mpr ⟨r, hr2, he.symm⟩)
      rw [rowsWithId_cons, if_neg hne, ih hids.2 hr2]

theorem map_id_of_all (f : SongRow → SongRow) (l : List SongRow) (h : ∀ r ∈ l, f r = r) :
    l.map f = l := by
  induction l with
  | nil => rfl
  | cons x rest ih =>
    rw [List.map_cons, h x (List.mem_cons_self _ _),
      ih (fun r hr => h r (List.mem_cons_of_mem _ hr))]

theorem rowsWithId_map_idpres (f : SongRow → SongRow) (hf : ∀ r, (f r).id = r.id)
    (cat : List SongRow) (i : Nat) :
    rowsWithId (cat.map f) i = (rowsWithId cat i).map f := by
  induction cat with
  | nil => rfl
  | cons x rest ih =>
    rw [List.map_cons, rowsWithId_cons, rowsWithId_cons]
    by_cases h : x.id = i
    · rw [if_pos (by rw [hf]; exact h), if_pos h, List.map_cons, ih]
    · rw [if_neg (by rw [hf]; exact h), if_neg h, ih]

theorem rowsWithId_filter_ne (cat : List SongRow) (i j : Nat) (hji : j ≠ i) :
    rowsWithId (cat.filter (fun r => decide (r.id ≠ j))) i = rowsWithId cat i := by
  induction cat with
  | nil => rfl
  | cons x rest ih =>
    by_cases h : x.id = j
    · rw [show List.filter (fun r => decide (r.id ≠ j)) (x :: rest) =
          List.filter (fun r => decide (r.id ≠ j)) rest from by simp [List.filter_cons, h],
        rowsWithId_cons, if_neg (fun he => hji (h.symm.trans he)), ih]
    · rw [show List.filter (fun r => decide (r.id ≠ j)) (x :: rest) =
          x :: List.filter (fun r => decide (r.id ≠ j)) rest from by
            simp [List.filter_cons, h],
        rowsWithId_cons, rowsWithId_cons, ih]

theorem rowsWithId_applyMutation (cat : List SongRow) (m : Mutation) (i : Nat) :
    rowsWithId (applyMutation cat m) i = evolveId i (rowsWithId cat i) m := by
  cases m with
  | updContent j fp fmt fn =>
    simp only [applyMutation, evolveId]
    exact rowsWithId_map_idpres _ (fun r => by split <;> rfl) cat i
  | updPath j p fn fmt =>
    simp only [applyMutation, evolveId]
    exact rowsWithId_map_idpres _ (fun r => by split <;> rfl) cat i
  | ins row =>
    simp only [applyMutation, evolveId, rowsWithId, List.filter_append]
    congr 1
    by_cases h : row.id = i <;> simp [h]
  | del j =>
    simp only [applyMutation, evolveId]
    by_cases hji : j = i
    · subst hji
      rw [if_pos rfl]
      exact rowsWithId_eq_nil (fun r hr =>
        of_decide_eq_true ((List.mem_filter.mp hr).2))
    · rw [if_neg hji]
      exact rowsWithId_filter_ne cat i j hji

theorem rowsWithId_foldl (muts : List Mutation) (cat : List SongRow) (i : Nat) :
    rowsWithId (muts.foldl applyMutation cat) i =
      muts.foldl (evolveId i) (rowsWithId cat i) := by
  induction muts generalizing cat with
  | nil => rfl
  | cons m rest ih =>
    rw [List.foldl_cons, List.foldl_cons, ih, rowsWithId_applyMutation]

theorem evolveId_allId {i : Nat} {rows : List SongRow} (m : Mutation) (h : allId i rows) :
    allId i (evolveId i rows m) := by
  cases m with
  | updContent j fp fmt fn =>
    intro r hr
    obtain ⟨r0, hr0, hfr⟩ := List.mem_map.mp hr
    rw [← hfr]
    split <;> exact h r0 hr0
  | updPath j p fn fmt =>
    intro r hr
    obtain ⟨r0, hr0, hfr⟩ := List.mem_map.mp hr
    rw [← hfr]
    split <;> exact h r0 hr0
  | ins row =>
    intro r hr
    rcases List.mem_append.mp hr with h1 | h1
    · exact h r h1
    · by_cases hc : row.id = i
      · rw [if_pos hc] at h1
        rcases List.mem_singleton.mp h1 with rfl
        exact hc
      · rw [if_neg hc] at h1
        cases h1
  | del j =>
    intro r hr
    by_cases hc : j = i
    · rw [evolveId, if_pos hc] at hr
      cases hr
    · rw [evolveId, if_neg hc] at hr
      exact h r hr

theorem evolveId_untouched {i : Nat} {rows : List SongRow} (m : Mutation)
    (h : allId i rows) (ht : mutTouchId m ≠ i) : evolveId i rows m = rows := by
  cases m with
  | updContent j fp fmt fn =>
    exact map_id_of_all _ _ (fun r hr => by
      rw [if_neg (fun he => ht (he.symm.trans (h r hr)))])
  | updPath j p fn fmt =>
    exact map_id_of_all _ _ (fun r hr => by
      rw [if_neg (fun he => ht (he.symm.trans (h r hr)))])
  | ins row =>
    simp only [evolveId]
    rw [if_neg (show ¬ (row.id = i) from fun he => ht he), List.append_nil]
  | del j =>
    simp only [evolveId]
    rw [if_neg (show ¬ (j = i) from fun he => ht he)]

theorem foldl_evolveId_untouched {i : Nat} {rows : List SongRow} {muts : List Mutation}
    (h : allId i rows) (hm : ∀ m ∈ muts, mutTouchId m ≠ i) :
    muts.foldl (evolveId i) rows = rows := by
  induction muts with
  | nil => rfl
  | cons m rest ih =>
    rw [List.foldl_cons, evolveId_untouched m h (hm m (List.mem_cons_self _ _)),
      ih (fun m2 h2 => hm m2 (List.mem_cons_of_mem _ h2))]

theorem foldl_evolveId_single {i : Nat} {muts l1 l2 : List Mutation} {m : Mutation}
    (hdec : muts = l1 ++ m :: l2)
    (h1 : ∀ m2 ∈ l1, mutTouchId m2 ≠ i) (h2 : ∀ m2 ∈ l2, mutTouchId m2 ≠ i)
    {rows : List SongRow} (hall : allId i rows) :
    muts.foldl (evolveId i) rows = evolveId i rows m := by
  subst hdec
  rw [List.foldl_append, foldl_evolveId_untouched hall h1, List.foldl_cons,
    foldl_evolveId_untouched (evolveId_allId m hall) h2]

theorem foldl_evolveId_nil {i : Nat} {muts : List Mutation}
    (h : ∀ row : SongRow, Mutation.ins row ∈ muts → row.id ≠ i) :
    muts.foldl (evolveId i) [] = [] := by
  induction muts with
  | nil => rfl
  | cons m rest ih =>
    have hstep : evolveId i ([] : List SongRow) m = [] := by
      cases m with
      | ins row => simp [evolveId, h row (List.mem_cons_self _ _)]
      | updContent j fp fmt fn => rfl
      | updPath j p fn fmt => rfl
      | del j =>
        rw [evolveId]
        split <;> rfl
    rw [List.foldl_cons, hstep]
    exact ih (fun row hrow => h row (List.mem_cons_of_mem _ hrow))

theorem touch_decomp {muts : List Mutation} (hnd : (muts.map mutTouchId).Nodup)
    {m : Mutation} (hm : m ∈ muts) :
    ∃ l1 l2, muts = l1 ++ m :: l2 ∧
      (∀ m2 ∈ l1, mutTouchId m2 ≠ mutTouchId m) ∧
      (∀ m2 ∈ l2, mutTouchId m2 ≠ mutTouchId m) := by
  obtain ⟨l1, l2, rfl⟩ := List.append_of_mem hm
  rw [List.map_append, List.map_cons] at hnd
  refine ⟨l1, l2, rfl, ?_, ?_⟩
  · intro m2 h2 he
    exact List.disjoint_of_nodup_append hnd (List.mem_map.mpr ⟨m2, h2, rfl⟩)
      (he ▸ List.mem_cons_self _ _)
  · intro m2 h2 he
    have hr := (List.nodup_cons.mp (List.Nodup.of_append_right hnd)).1
    exact hr (List.mem_map.mpr ⟨m2, h2, he⟩)

-- ==========================================
-- Lemma library: loop B over new files
-- ==========================================

theorem mem_dremove_of_ne {α β : Type} [DecidableEq α] {m : List (α × β)} {x : α × β}
    {k : α} (hx : x ∈ m) (hne : x.1 ≠ k) : x ∈ dremove m k := by
  induction m with
  | nil => cases hx
  | cons hd tl ih =>
    obtain ⟨k0, v0⟩ := hd
    rcases List.mem_cons.mp hx with rfl | hx2
    · rw [show dremove ((k0, v0) :: tl) k = (k0, v0) :: dremove tl k from by
        simp [dremove, show ¬ (k0 = k) from hne]]
      exact List.mem_cons_self _ _
    · by_cases h0 : k0 = k
      · rw [show dremove ((k0, v0) :: tl) k = dremove tl k from by simp [dremove, h0]]
        exact ih hx2
      · rw [show dremove ((k0, v0) :: tl) k = (k0, v0) :: dremove tl k from by
          simp [dremove, h0]]
        exact List.mem_cons_of_mem _ (ih hx2)

theorem newStep_cases (acc : NewAcc) (pe : String × DiskEntry) :
    (∃ h oldRow, pe.2.fp = some h ∧ dlookup acc.mh h = some oldRow ∧
      newStep acc pe =
        { acc with
          muts := acc.muts ++ [.updPath oldRow.id pe.1 pe.2.filename pe.2.fmt],
          mh := dremove acc.mh h,
          moved := acc.moved + 1 }) ∨
    newStep acc pe =
      { acc with
        muts := acc.muts ++
          [.ins (add_song_placeholder acc.nextId pe.1 pe.2.filename pe.2.fmt pe.2.fp)],
        nextId := acc.nextId + 1,
        added := acc.added + 1 } := by
  cases hfp : pe.2.fp with
  | none =>
    right
    simp [newStep, hfp, addNew]
  | some h =>
    cases hmh : dlookup acc.mh h with
    | none =>
      right
      simp [newStep, hfp, hmh, addNew]
    | some oldRow =>
      left
      exact ⟨h, oldRow, rfl, hmh, by simp [newStep, hfp, hmh]⟩

theorem newStep_muts_append (acc : NewAcc) (pe : String × DiskEntry) :
    ∃ mnew, (newStep acc pe).muts = acc.muts ++ [mnew] := by
  rcases newStep_cases acc pe with ⟨h, oldRow, hfp, hmh, heq⟩ | heq
  · exact ⟨_, by rw [heq]⟩
  · exact ⟨_, by rw [heq]⟩

theorem newFold_muts_mono (l : List (String × DiskEntry)) (acc : NewAcc) {m : Mutation}
    (hm : m ∈ acc.muts) : m ∈ (l.foldl newStep acc).muts := by
  induction l generalizing acc with
  | nil => exact hm
  | cons pe rest ih =>
    rw [List.foldl_cons]
    apply ih
    obtain ⟨mnew, hmn⟩ := newStep_muts_append acc pe
    rw [hmn]
    exact List.mem_append.mpr (Or.inl hm)

theorem newStep_BInv {mh0 : List (Digest × SongRow)} {nextId0 : Nat}
    {npaths : List (String × DiskEntry)} {acc : NewAcc}
    (hi : ∀ x ∈ mh0, x.2.id < nextId0)
    (hj : ∀ x ∈ mh0, ∀ y ∈ mh0, x.2.id = y.2.id → x = y)
    (inv : BInv mh0 nextId0 npaths acc)
    (pe : String × DiskEntry) (hpe : pe ∈ npaths) :
    BInv mh0 nextId0 npaths (newStep acc pe) := by
  rcases newStep_cases acc pe with ⟨h, oldRow, hfp, hmh, heq⟩ | heq
  · have hmem : (h, oldRow) ∈ acc.mh := mem_of_dlookup_eq_some hmh
    have hmem0 : (h, oldRow) ∈ mh0 := inv.mhSub _ hmem
    rw [heq]
    refine ⟨?_, ?_, ?_, ?_, ?_, ?_⟩
    · intro x hx
      exact inv.mhSub x (mem_dremove hx).1
    · exact dkeys_dremove_nodup inv.mhNodup
    · exact inv.nidGe
    · intro x hx m hm
      have hx0 := mem_dremove hx
      rcases List.mem_append.mp hm with hm1 | hm1
      · exact inv.untouched x hx0.1 m hm1
      · rcases List.mem_singleton.mp hm1 with rfl
        intro he
        have hx0mem : x ∈ mh0 := inv.mhSub x hx0.1
        have hxeq : (h, oldRow) = x := hj _ hmem0 _ hx0mem he
        exact hx0.2 (by rw [← hxeq])
    · intro m hm
      rcases List.mem_append.mp hm with hm1 | hm1
      · rcases inv.shape m hm1 with h1 | ⟨pe2, hpe2, j, hj1, hj2, hm2⟩
        · exact Or.inl h1
        · exact Or.inr ⟨pe2, hpe2, j, hj1, hj2, hm2⟩
      · rcases List.mem_singleton.mp hm1 with rfl
        exact Or.inl ⟨(h, oldRow), hmem0, pe.1, pe.2.filename, pe.2.fmt, rfl⟩
    · rw [List.map_append]
      refine List.Nodup.append inv.touchNodup (by simp) ?_
      intro t ht1 ht2
      obtain ⟨m1, hm1, hmt⟩ := List.mem_map.mp ht1
      simp only [List.map_cons, List.map_nil, List.mem_singleton] at ht2
      subst ht2
      exact inv.untouched _ hmem m1 hm1 hmt
  · rw [heq]
    refine ⟨?_, ?_, ?_, ?_, ?_, ?_⟩
    · exact inv.mhSub
    · exact inv.mhNodup
    · exact Nat.le_trans inv.nidGe (Nat.le_succ _)
    · intro x hx m hm
      rcases List.mem_append.mp hm with hm1 | hm1
      · exact inv.untouched x hx m hm1
      · rcases List.mem_singleton.mp hm1 with rfl
        intro he
        have hlt : x.2.id < nextId0 := hi _ (inv.mhSub x hx)
        have hge := inv.nidGe
        have heq2 : acc.nextId = x.2.id := he
        omega
    · intro m hm
      rcases List.mem_append.mp hm with hm1 | hm1
      · rcases inv.shape m hm1 with h1 | ⟨pe2, hpe2, j, hj1, hj2, hm2⟩
        · exact Or.inl h1
        · exact Or.inr ⟨pe2, hpe2, j, hj1, Nat.lt_trans hj2 (Nat.lt_succ_self _), hm2⟩
      · rcases List.mem_singleton.mp hm1 with rfl
        exact Or.inr ⟨pe, hpe, acc.nextId, inv.nidGe, Nat.lt_succ_self _, rfl⟩
    · rw [List.map_append]
      refine List.Nodup.append inv.touchNodup (by simp) ?_
      intro t ht1 ht2
      simp only [List.map_cons, List.map_nil, List.mem_singleton] at ht2
      rw [show mutTouchId (Mutation.ins
          (add_song_placeholder acc.nextId pe.1 pe.2.filename pe.2.fmt pe.2.fp)) =
          acc.nextId from rfl] at ht2
      obtain ⟨m1, hm1, hmt⟩ := List.mem_map.mp ht1
      have hge := inv.nidGe
      rcases inv.shape m1 hm1 with ⟨x, hx, q, fn, fm, hm2⟩ | ⟨pe2, hpe2, j, hj1, hj2, hm2⟩
      · have ht3 : mutTouchId m1 = x.2.id := by rw [hm2]; rfl
        have hlt : x.2.id < nextId0 := hi _ hx
        omega
      · have ht3 : mutTouchId m1 = j := by rw [hm2]; rfl
        omega

theorem newFold_BInv {mh0 : List (Digest × SongRow)} {nextId0 : Nat}
    {npaths : List (String × DiskEntry)}
    (hi : ∀ x ∈ mh0, x.2.id < nextId0)
    (hj : ∀ x ∈ mh0, ∀ y ∈ mh0, x.2.id = y.2.id → x = y)
    (l : List (String × DiskEntry)) (hl : ∀ pe ∈ l, pe ∈ npaths)
    {acc : NewAcc} (inv : BInv mh0 nextId0 npaths acc) :
    BInv mh0 nextId0 npaths (l.foldl newStep acc) := by
  induction l generalizing acc with
  | nil => exact inv
  | cons pe rest ih =>
    rw [List.foldl_cons]
    exact ih (fun pe2 h2 => hl pe2 (List.mem_cons_of_mem _ h2))
      (newStep_BInv hi hj inv pe (hl pe (List.mem_cons_self _ _)))

theorem newFold_mh_dichotomy {mh0 : List (Digest × SongRow)} {nextId0 : Nat}
    {npaths : List (String × DiskEntry)}
    (hi : ∀ x ∈ mh0, x.2.id < nextId0)
    (hj : ∀ x ∈ mh0, ∀ y ∈ mh0, x.2.id = y.2.id → x = y)
    (l : List (String × DiskEntry)) (hl : ∀ pe ∈ l, pe ∈ npaths)
    {acc : NewAcc} (inv : BInv mh0 nextId0 npaths acc)
    {x : Digest × SongRow} (hx : x ∈ acc.mh) :
    x ∈ (l.foldl newStep acc).mh ∨
    ∃ pe ∈ l, pe.2.fp = some x.1 ∧
      Mutation.updPath x.2.id pe.1 pe.2.filename pe.2.fmt ∈ (l.foldl newStep acc).muts := by
  induction l generalizing acc with
  | nil => exact Or.inl hx
  | cons pe rest ih =>
    rw [List.foldl_cons]
    have htail : ∀ pe2 ∈ rest, pe2 ∈ npaths :=
      fun pe2 h2 => hl pe2 (List.mem_cons_of_mem _ h2)
    have hinv2 : BInv mh0 nextId0 npaths (newStep acc pe) :=
      newStep_BInv hi hj inv pe (hl pe (List.mem_cons_self _ _))
    rcases newStep_cases acc pe with ⟨h, oldRow, hfp, hmh, heq⟩ | heq
    · by_cases hkey : h = x.1
      · subst hkey
        have hxpair : (x.1, x.2) ∈ acc.mh := by
          rw [show ((x.1, x.2) : Digest × SongRow) = x from rfl]
          exact hx
        have hlk : dlookup acc.mh x.1 = some x.2 :=
          dlookup_eq_some_of_mem inv.mhNodup hxpair
        rw [hmh] at hlk
        injection hlk with hlk
        right
        refine ⟨pe, List.mem_cons_self _ _, hfp, ?_⟩
        apply newFold_muts_mono
        rw [heq]
        apply List.mem_append.mpr
        right
        rw [hlk]
        exact List.mem_singleton.mpr rfl
      · have hx2 : x ∈ (newStep acc pe).mh := by
          rw [heq]
          exact mem_dremove_of_ne hx (fun hh => hkey hh.symm)
        rcases ih htail hinv2 hx2 with h1 | ⟨pe2, hpe2, hfp2, hmut⟩
        · exact Or.inl h1
        · exact Or.inr ⟨pe2, List.mem_cons_of_mem _ hpe2, hfp2, hmut⟩
    · have hx2 : x ∈ (newStep acc pe).mh := by
        rw [heq]
        exact hx
      rcases ih htail hinv2 hx2 with h1 | ⟨pe2, hpe2, hfp2, hmut⟩
      · exact Or.inl h1
      · exact Or.inr ⟨pe2, List.mem_cons_of_mem _ hpe2, hfp2, hmut⟩

theorem newFold_path_outcome {mh0 : List (Digest × SongRow)} {nextId0 : Nat}
    {npaths : List (String × DiskEntry)}
    (hi : ∀ x ∈ mh0, x.2.id < nextId0)
    (hj : ∀ x ∈ mh0, ∀ y ∈ mh0, x.2.id = y.2.id → x = y)
    (l : List (String × DiskEntry)) (hl : ∀ pe ∈ l, pe ∈ npaths)
    {acc : NewAcc} (inv : BInv mh0 nextId0 npaths acc)
    {pe : String × DiskEntry} (hpe : pe ∈ l) :
    (∃ x ∈ mh0, pe.2.fp = some x.1 ∧
      Mutation.updPath x.2.id pe.1 pe.2.filename pe.2.fmt ∈ (l.foldl newStep acc).muts) ∨
    (∃ j, nextId0 ≤ j ∧
      Mutation.ins (add_song_placeholder j pe.1 pe.2.filename pe.2.fmt pe.2.fp) ∈
        (l.foldl newStep acc).muts) := by
  induction l generalizing acc with
  | nil => cases hpe
  | cons pe1 rest ih =>
    rw [List.foldl_cons]
    have htail : ∀ pe2 ∈ rest, pe2 ∈ npaths :=
      fun pe2 h2 => hl pe2 (List.mem_cons_of_mem _ h2)
    have hinv2 : BInv mh0 nextId0 npaths (newStep acc pe1) :=
      newStep_BInv hi hj inv pe1 (hl pe1 (List.mem_cons_self _ _))
    rcases List.mem_cons.mp hpe with rfl | hpe2
    · rcases newStep_cases acc pe with ⟨h, oldRow, hfp, hmh, heq⟩ | heq
      · left
        have hmem0 : (h, oldRow) ∈ mh0 := inv.mhSub _ (mem_of_dlookup_eq_some hmh)
        refine ⟨(h, oldRow), hmem0, hfp, ?_⟩
        apply newFold_muts_mono
        rw [heq]
        exact List.mem_append.mpr (Or.inr (List.mem_singleton.mpr rfl))
      · right
        refine ⟨acc.nextId, inv.nidGe, ?_⟩
        apply newFold_muts_mono
        rw [heq]
        exact List.mem_append.mpr (Or.inr (List.mem_singleton.mpr rfl))
    · exact ih htail hinv2 hpe2

-- ==========================================
-- Lemma library: catalog lookup, loop A, missing_hashes, walk keys
-- ==========================================

theorem foldl_preserve {γ δ : Type} (P : γ → Prop) (f : γ → δ → γ)
    (hf : ∀ a b, P a → P (f a b)) (l : List δ) (a : γ) (h : P a) : P (l.foldl f a) := by
  induction l generalizing a with
  | nil => exact h
  | cons b rest ih => exact ih _ (hf a b h)

theorem findByPath_mem {cat : List SongRow} {p : String} {r : SongRow}
    (h : findByPath cat p = some r) : r ∈ cat ∧ r.file_path = p := by
  induction cat with
  | nil => simp [findByPath] at h
  | cons x rest ih =>
    unfold findByPath at h
    by_cases hx : x.file_path = p
    · rw [List.find?_cons_of_pos _ (by simp [hx])] at h
      injection h with h
      subst h
      exact ⟨List.mem_cons_self _ _, hx⟩
    · rw [List.find?_cons_of_neg _ (by simp [hx])] at h
      obtain ⟨h1, h2⟩ := ih h
      exact ⟨List.mem_cons_of_mem _ h1, h2⟩

theorem findByPath_self {cat : List SongRow} (hpaths : (cat.map SongRow.file_path).Nodup)
    {r : SongRow} (hr : r ∈ cat) : findByPath cat r.file_path = some r := by
  induction cat with
  | nil => cases hr
  | cons x rest ih =>
    simp only [List.map_cons, List.nodup_cons] at hpaths
    rcases List.mem_cons.mp hr with rfl | hr2
    · unfold findByPath
      rw [List.find?_cons_of_pos _ (by simp)]
    · have hne : x.file_path ≠ r.file_path := fun he =>
        hpaths.1 (List.mem_map.mpr ⟨r, hr2, he.symm⟩)
      unfold findByPath
      rw [List.find?_cons_of_neg _ (by simp [hne])]
      exact ih hpaths.2 hr2

theorem findByPath_isSome_of_exists {cat : List SongRow} {p : String}
    (h : ∃ r ∈ cat, r.file_path = p) : (findByPath cat p).isSome := by
  induction cat with
  | nil =>
    obtain ⟨r, hr, _⟩ := h
    cases hr
  | cons x rest ih =>
    by_cases hx : x.file_path = p
    · unfold findByPath
      rw [List.find?_cons_of_pos _ (by simp [hx])]
      rfl
    · obtain ⟨r, hr, hp⟩ := h
      rcases List.mem_cons.mp hr with rfl | hr2
      · exact absurd hp hx
      · unfold findByPath
        rw [List.find?_cons_of_neg _ (by simp [hx])]
        exact ih ⟨r, hr2, hp⟩

theorem nodup_map_inj {γ : Type} {f : SongRow → γ} {l : List SongRow}
    (h : (l.map f).Nodup) : ∀ x ∈ l, ∀ y ∈ l, f x = f y → x = y := by
  induction l with
  | nil => intro x hx; cases hx
  | cons a rest ih =>
    simp only [List.map_cons, List.nodup_cons] at h
    intro x hx y hy hxy
    rcases List.mem_cons.mp hx with rfl | hx2 <;> rcases List.mem_cons.mp hy with rfl | hy2
    · rfl
    · exact absurd (List.mem_map.mpr ⟨y, hy2, hxy.symm⟩) h.1
    · exact absurd (List.mem_map.mpr ⟨x, hx2, hxy⟩) h.1
    · exact ih h.2 x hx2 y hy2 hxy

theorem mem_commonOf {cat : List SongRow} {disk : List (String × DiskEntry)}
    {pe : String × DiskEntry} :
    pe ∈ commonOf cat disk ↔ pe ∈ disk ∧ (findByPath cat pe.1).isSome := by
  simp [commonOf, List.mem_filter]

theorem mem_newOf {cat : List SongRow} {disk : List (String × DiskEntry)}
    {pe : String × DiskEntry} :
    pe ∈ newOf cat disk ↔ pe ∈ disk ∧ findByPath cat pe.1 = none := by
  simp [newOf, List.mem_filter, Option.isNone_iff_eq_none]

theorem mem_missingOf {cat : List SongRow} {disk : List (String × DiskEntry)}
    {r : SongRow} :
    r ∈ missingOf cat disk ↔ r ∈ cat ∧ dlookup disk r.file_path = none := by
  simp [missingOf, List.mem_filter, Option.isNone_iff_eq_none]

theorem updateFor_eq (cat : List SongRow) (pe : String × DiskEntry) :
    updateFor cat pe =
      match findByPath cat pe.1 with
      | none => none
      | some row =>
        if row.file_hash ≠ pe.2.fp ∨ row.format ≠ pe.2.fmt then
          some (.updContent row.id pe.2.fp pe.2.fmt pe.2.filename)
        else none := rfl

theorem updateFor_spec (cat : List SongRow) (pe : String × DiskEntry) {m : Mutation}
    (h : updateFor cat pe = some m) :
    ∃ row, findByPath cat pe.1 = some row ∧
      ¬ (row.file_hash = pe.2.fp ∧ row.format = pe.2.fmt) ∧
      m = .updContent row.id pe.2.fp pe.2.fmt pe.2.filename := by
  rw [updateFor_eq] at h
  cases hfind : findByPath cat pe.1 with
  | none =>
    rw [hfind] at h
    cases h
  | some row =>
    rw [hfind] at h
    by_cases hcond : row.file_hash ≠ pe.2.fp ∨ row.format ≠ pe.2.fmt
    · rw [show (match some row with
          | none => none
          | some row =>
            if row.file_hash ≠ pe.2.fp ∨ row.format ≠ pe.2.fmt then
              some (Mutation.updContent row.id pe.2.fp pe.2.fmt pe.2.filename)
            else none) =
          (if row.file_hash ≠ pe.2.fp ∨ row.format ≠ pe.2.fmt then
            some (Mutation.updContent row.id pe.2.fp pe.2.fmt pe.2.filename)
          else none) from rfl, if_pos hcond] at h
      injection h with h
      refine ⟨row, rfl, ?_, h.symm⟩
      intro hand
      rcases hcond with hc | hc
      · exact hc hand.1
      · exact hc hand.2
    · rw [show (match some row with
          | none => none
          | some row =>
            if row.file_hash ≠ pe.2.fp ∨ row.format ≠ pe.2.fmt then
              some (Mutation.updContent row.id pe.2.fp pe.2.fmt pe.2.filename)
            else none) =
          (if row.file_hash ≠ pe.2.fp ∨ row.format ≠ pe.2.fmt then
            some (Mutation.updContent row.id pe.2.fp pe.2.fmt pe.2.filename)
          else none) from rfl, if_neg hcond] at h
      cases h

theorem updateFor_none (cat : List SongRow) (pe : String × DiskEntry) {row : SongRow}
    (hf : findByPath cat pe.1 = some row)
    (hmatch : row.file_hash = pe.2.fp ∧ row.format = pe.2.fmt) :
    updateFor cat pe = none := by
  rw [updateFor_eq, hf]
  rw [show (match some row with
      | none => none
      | some row =>
        if row.file_hash ≠ pe.2.fp ∨ row.format ≠ pe.2.fmt then
          some (Mutation.updContent row.id pe.2.fp pe.2.fmt pe.2.filename)
        else none) =
      (if row.file_hash ≠ pe.2.fp ∨ row.format ≠ pe.2.fmt then
        some (Mutation.updContent row.id pe.2.fp pe.2.fmt pe.2.filename)
      else none) from rfl, if_neg]
  intro hcond
  rcases hcond with hc | hc
  · exact hc hmatch.1
  · exact hc hmatch.2

theorem mutsA_shape {cat : List SongRow} {disk : List (String × DiskEntry)} {m : Mutation}
    (h : m ∈ mutsAOf cat disk) :
    ∃ pe ∈ disk, ∃ row ∈ cat, row.file_path = pe.1 ∧
      findByPath cat pe.1 = some row ∧
      ¬ (row.file_hash = pe.2.fp ∧ row.format = pe.2.fmt) ∧
      m = .updContent row.id pe.2.fp pe.2.fmt pe.2.filename := by
  obtain ⟨pe, hpe, hupd⟩ := List.mem_filterMap.mp h
  obtain ⟨row, hf, hcond, hm⟩ := updateFor_spec cat pe hupd
  obtain ⟨hrow, hpath⟩ := findByPath_mem hf
  exact ⟨pe, (mem_commonOf.mp hpe).1, row, hrow, hpath, hf, hcond, hm⟩

theorem mutsA_no_ins {cat : List SongRow} {disk : List (String × DiskEntry)}
    {row : SongRow} (h : Mutation.ins row ∈ mutsAOf cat disk) : False := by
  obtain ⟨pe, _, r2, _, _, _, _, hm⟩ := mutsA_shape h
  cases hm

theorem mutsA_touch_nodup {cat : List SongRow}
    (hids : (cat.map SongRow.id).Nodup)
    (l : List (String × DiskEntry)) (hnd : (dkeys l).Nodup) :
    ((l.filterMap (updateFor cat)).map mutTouchId).Nodup := by
  induction l with
  | nil => simp
  | cons pe rest ih =>
    simp only [dkeys, List.map_cons, List.nodup_cons] at hnd
    rw [List.filterMap_cons]
    cases hupd : updateFor cat pe with
    | none => exact ih hnd.2
    | some m =>
      rw [List.map_cons, List.nodup_cons]
      refine ⟨?_, ih hnd.2⟩
      intro hin
      obtain ⟨m2, hm2, ht⟩ := List.mem_map.mp hin
      obtain ⟨row, hf, hcond, hm⟩ := updateFor_spec cat pe hupd
      obtain ⟨pe2, hpe2, hupd2⟩ := List.mem_filterMap.mp hm2
      obtain ⟨row2, hf2, hcond2, hm2e⟩ := updateFor_spec cat pe2 hupd2
      have hid2 : row2.id = row.id := by
        have h1 : mutTouchId m = row.id := by rw [hm]; rfl
        have h2 : mutTouchId m2 = row2.id := by rw [hm2e]; rfl
        rw [h1] at ht
        rw [h2] at ht
        exact ht
      have hroweq : row2 = row :=
        nodup_map_inj hids row2 (findByPath_mem hf2).1 row (findByPath_mem hf).1 hid2
      have hkey : pe2.1 = pe.1 := by
        rw [← (findByPath_mem hf2).2, hroweq, (findByPath_mem hf).2]
      exact hnd.1 (hkey ▸ List.mem_map.mpr ⟨pe2, hpe2, rfl⟩)

theorem mhStep_keys_nodup {m : List (Digest × SongRow)} {r : SongRow}
    (h : (dkeys m).Nodup) : (dkeys (mhStep m r)).Nodup := by
  unfold mhStep
  split
  · exact dkeys_dinsert_nodup h
  · exact h

theorem buildMh_keys_nodup (missing : List SongRow) : (dkeys (buildMh missing)).Nodup := by
  unfold buildMh
  exact foldl_preserve (fun m => (dkeys m).Nodup) mhStep
    (fun a b hp => mhStep_keys_nodup hp) missing [] (by simp [dkeys])

theorem mem_buildMh {missing : List SongRow} {x : Digest × SongRow}
    (hx : x ∈ buildMh missing) : x.2 ∈ missing ∧ x.2.file_hash = some x.1 := by
  have hxp : (x.1, x.2) ∈ buildMh missing := by
    rw [show ((x.1, x.2) : Digest × SongRow) = x from rfl]
    exact hx
  exact buildMh_sound (dlookup_eq_some_of_mem (buildMh_keys_nodup missing) hxp)

theorem buildMh_persist (l : List SongRow) (m0 : List (Digest × SongRow)) (h : Digest)
    (r : SongRow) (hlk : dlookup m0 h = some r)
    (huniq : ∀ x ∈ l, x.file_hash = some h → x = r) :
    dlookup (l.foldl mhStep m0) h = some r := by
  induction l generalizing m0 with
  | nil => exact hlk
  | cons x rest ih =>
    rw [List.foldl_cons]
    apply ih
    · unfold mhStep
      cases hfh : x.file_hash with
      | none => exact hlk
      | some h0 =>
        rw [dlookup_dinsert]
        by_cases hh : h0 = h
        · subst hh
          rw [if_pos rfl, huniq x (List.mem_cons_self _ _) hfh]
        · rw [if_neg hh]
          exact hlk
    · intro x2 hx2 hh2
      exact huniq x2 (List.mem_cons_of_mem _ hx2) hh2

theorem buildMh_complete (missing : List SongRow)
    (hdup : ∀ r1 ∈ missing, ∀ r2 ∈ missing, ∀ h : Digest,
      r1.file_hash = some h → r2.file_hash = some h → r1 = r2)
    {r : SongRow} (hr : r ∈ missing) {h : Digest} (hh : r.file_hash = some h) :
    dlookup (buildMh missing) h = some r := by
  unfold buildMh
  have haux : ∀ (l : List SongRow) (m0 : List (Digest × SongRow)),
      r ∈ l → (∀ x ∈ l, x.file_hash = some h → x = r) →
      dlookup (l.foldl mhStep m0) h = some r := by
    intro l
    induction l with
    | nil =>
      intro m0 hr0
      cases hr0
    | cons x rest ih =>
      intro m0 hr0 huniq
      rw [List.foldl_cons]
      rcases List.mem_cons.mp hr0 with rfl | hr2
      · apply buildMh_persist
        · unfold mhStep
          rw [hh, dlookup_dinsert, if_pos rfl]
        · intro x2 hx2 hh2
          exact huniq x2 (List.mem_cons_of_mem _ hx2) hh2
      · exact ih _ hr2 (fun x2 hx2 hh2 => huniq x2 (List.mem_cons_of_mem _ hx2) hh2)
  exact haux missing [] hr (fun x hx hh2 => hdup x hx r hr h hh2 hh)

theorem buildMh_nil_of_none (missing : List SongRow)
    (h : ∀ r ∈ missing, r.file_hash = none) : buildMh missing = [] := by
  unfold buildMh
  induction missing with
  | nil => rfl
  | cons x rest ih =>
    rw [List.foldl_cons]
    rw [show mhStep [] x = [] from by
      unfold mhStep
      rw [h x (List.mem_cons_self _ _)]]
    exact ih (fun r hr => h r (List.mem_cons_of_mem _ hr))

theorem discoverStep_keys_nodup {relRoot : String} {fl : List String}
    {acc : List (String × DiskEntry)} {f : DiskFile}
    (h : (dkeys acc).Nodup) : (dkeys (discoverStep relRoot fl acc f)).Nodup := by
  unfold discoverStep
  split
  · exact h
  · split
    · exact dkeys_dinsert_nodup h
    · exact h

theorem discover_keys_nodup (walk : List DirEntry) : (dkeys (discover walk)).Nodup := by
  unfold discover
  refine foldl_preserve (fun m => (dkeys m).Nodup) discoverDir ?_ walk [] (by simp [dkeys])
  intro acc d hp
  unfold discoverDir
  exact foldl_preserve (fun m => (dkeys m).Nodup) _
    (fun a b hq => discoverStep_keys_nodup hq) d.files acc hp

-- ==========================================
-- Lemma library: the assembled scan plan
-- ==========================================

theorem commonOf_keys_nodup {cat : List SongRow} {disk : List (String × DiskEntry)}
    (hdk : (dkeys disk).Nodup) : (dkeys (commonOf cat disk)).Nodup := by
  unfold commonOf dkeys
  exact List.Nodup.sublist (List.Sublist.map _ (List.filter_sublist _)) hdk

theorem mh0_ids_lt {cat : List SongRow} {disk : List (String × DiskEntry)} {nextId : Nat}
    (hnext : ∀ r ∈ cat, r.id < nextId) :
    ∀ x ∈ buildMh (missingOf cat disk), x.2.id < nextId :=
  fun _ hx => hnext _ (mem_missingOf.mp (mem_buildMh hx).1).1

theorem mh0_inj {cat : List SongRow} {disk : List (String × DiskEntry)}
    (hids : (cat.map SongRow.id).Nodup) :
    ∀ x ∈ buildMh (missingOf cat disk), ∀ y ∈ buildMh (missingOf cat disk),
      x.2.id = y.2.id → x = y := by
  intro x hx y hy hxy
  have hx2 := mem_buildMh hx
  have hy2 := mem_buildMh hy
  have hrow : x.2 = y.2 :=
    nodup_map_inj hids _ (mem_missingOf.mp hx2.1).1 _ (mem_missingOf.mp hy2.1).1 hxy
  have hkey : x.1 = y.1 := by
    have h1 := hx2.2
    have h2 := hy2.2
    rw [hrow, h2] at h1
    injection h1 with h1
    exact h1.symm
  exact Prod.ext hkey hrow

theorem accB_BInv {cat : List SongRow} {disk : List (String × DiskEntry)} {nextId : Nat}
    (hids : (cat.map SongRow.id).Nodup)
    (hnext : ∀ r ∈ cat, r.id < nextId) :
    BInv (buildMh (missingOf cat disk)) nextId (newOf cat disk)
      (accBOf cat disk nextId) := by
  unfold accBOf
  refine newFold_BInv (mh0_ids_lt hnext) (mh0_inj hids) _ (fun pe h => h) ?_
  exact ⟨fun x hx => hx, buildMh_keys_nodup _, Nat.le_refl _,
    fun x _ m hm => absurd hm (List.not_mem_nil m),
    fun m hm => absurd hm (List.not_mem_nil m), by simp⟩

theorem mutsA_touch_char {cat : List SongRow} {disk : List (String × DiskEntry)}
    (hdk : (dkeys disk).Nodup) {m : Mutation} (hm : m ∈ mutsAOf cat disk) :
    ∃ row ∈ cat, mutTouchId m = row.id ∧ (dlookup disk row.file_path).isSome := by
  obtain ⟨pe, hpe, row, hrow, hpath, hf, hcond, hmeq⟩ := mutsA_shape hm
  refine ⟨row, hrow, by rw [hmeq]; rfl, ?_⟩
  rw [hpath, dlookup_eq_some_of_mem hdk hpe]
  rfl

theorem accB_touch_char {cat : List SongRow} {disk : List (String × DiskEntry)} {nextId : Nat}
    (hids : (cat.map SongRow.id).Nodup)
    (hnext : ∀ r ∈ cat, r.id < nextId)
    {m : Mutation} (hm : m ∈ (accBOf cat disk nextId).muts) :
    (∃ x ∈ buildMh (missingOf cat disk), mutTouchId m = x.2.id) ∨ nextId ≤ mutTouchId m := by
  rcases (accB_BInv hids hnext).shape m hm with ⟨x, hx, q, fn, fm, hmeq⟩ |
    ⟨pe, hpe, j, hj1, hj2, hmeq⟩
  · exact Or.inl ⟨x, hx, by rw [hmeq]; rfl⟩
  · right
    rw [show mutTouchId m = j from by rw [hmeq]; rfl]
    exact hj1

theorem plan_touch_nodup {cat : List SongRow} {disk : List (String × DiskEntry)} {nextId : Nat}
    (hids : (cat.map SongRow.id).Nodup)
    (hnext : ∀ r ∈ cat, r.id < nextId)
    (hdk : (dkeys disk).Nodup) :
    (((scanPlan cat nextId disk).1).map mutTouchId).Nodup := by
  have hinv := @accB_BInv cat disk nextId hids hnext
  have hA : ((mutsAOf cat disk).map mutTouchId).Nodup :=
    mutsA_touch_nodup hids _ (commonOf_keys_nodup hdk)
  have hB : (((accBOf cat disk nextId).muts).map mutTouchId).Nodup := hinv.touchNodup
  have hC : (((accBOf cat disk nextId).mh.map (fun hr => Mutation.del hr.2.id)).map
      mutTouchId).Nodup := by
    rw [List.map_map]
    have hvals : ((accBOf cat disk nextId).mh.map (fun hr => hr.2.id)).Nodup := by
      refine List.Nodup.map_on ?_ ?_
      · intro x hx y hy hxy
        exact mh0_inj hids x (hinv.mhSub x hx) y (hinv.mhSub y hy) hxy
      · exact List.Nodup.of_map _ hinv.mhNodup
    exact hvals
  have hBC : ((((accBOf cat disk nextId).muts) ++
      (accBOf cat disk nextId).mh.map (fun hr => Mutation.del hr.2.id)).map
        mutTouchId).Nodup := by
    rw [List.map_append]
    refine List.Nodup.append hB hC ?_
    intro t ht1 ht2
    obtain ⟨m1, hm1, hmt1⟩ := List.mem_map.mp ht1
    obtain ⟨m2, hm2, hmt2⟩ := List.mem_map.mp ht2
    obtain ⟨x, hx, hm2e⟩ := List.mem_map.mp hm2
    have ht3 : mutTouchId m2 = x.2.id := by rw [← hm2e]; rfl
    exact hinv.untouched x hx m1 hm1 (by rw [hmt1, ← hmt2, ht3])
  rw [show (scanPlan cat nextId disk).1 =
      mutsAOf cat disk ++ ((accBOf cat disk nextId).muts ++
        (accBOf cat disk nextId).mh.map (fun hr => Mutation.del hr.2.id)) from by
    rw [← List.append_assoc]
    rfl]
  rw [List.map_append]
  refine List.Nodup.append hA hBC ?_
  intro t ht1 ht2
  obtain ⟨mA, hmA, hmtA⟩ := List.mem_map.mp ht1
  obtain ⟨rowA, hrowA, htA, hsomeA⟩ := mutsA_touch_char hdk hmA
  rw [List.map_append] at ht2
  rcases List.mem_append.mp ht2 with ht2 | ht2
  · obtain ⟨mB, hmB, hmtB⟩ := List.mem_map.mp ht2
    rcases accB_touch_char hids hnext hmB with ⟨x, hx, htB⟩ | htB
    · have hmiss := mem_missingOf.mp (mem_buildMh hx).1
      have hroweq : rowA = x.2 := by
        refine nodup_map_inj hids rowA hrowA x.2 hmiss.1 ?_
        rw [← htA, hmtA, ← hmtB, htB]
      rw [hroweq, hmiss.2] at hsomeA
      cases hsomeA
    · have hlt := hnext rowA hrowA
      rw [← htA, hmtA, ← hmtB] at hlt
      omega
  · obtain ⟨mC, hmC, hmtC⟩ := List.mem_map.mp ht2
    obtain ⟨x, hx, hmCe⟩ := List.mem_map.mp hmC
    have ht3 : mutTouchId mC = x.2.id := by rw [← hmCe]; rfl
    have hmiss := mem_missingOf.mp (mem_buildMh (hinv.mhSub x hx)).1
    have hroweq : rowA = x.2 := by
      refine nodup_map_inj hids rowA hrowA x.2 hmiss.1 ?_
      rw [← htA, hmtA, ← hmtC, ht3]
    rw [hroweq, hmiss.2] at hsomeA
    cases hsomeA

theorem commonOf_eq_self {cat : List SongRow} {disk : List (String × DiskEntry)}
    (h : ∀ pe ∈ disk, (findByPath cat pe.1).isSome) : commonOf cat disk = disk :=
  List.filter_eq_self.mpr (fun pe hpe => h pe hpe)

theorem newOf_eq_nil {cat : List SongRow} {disk : List (String × DiskEntry)}
    (h : ∀ pe ∈ disk, (findByPath cat pe.1).isSome) : newOf cat disk = [] := by
  unfold newOf
  rw [List.filter_eq_nil_iff]
  intro pe hpe
  have hs := h pe hpe
  intro hn
  rw [Option.isNone_iff_eq_none.mp hn] at hs
  cases hs

theorem mutsA_nil_of_synced {cat : List SongRow} {disk : List (String × DiskEntry)}
    (hdk : (dkeys disk).Nodup) (hs : Synced disk cat) : mutsAOf cat disk = [] := by
  unfold mutsAOf
  rw [List.filterMap_eq_nil_iff]
  intro pe hpe
  obtain ⟨hdisk, hsome⟩ := mem_commonOf.mp hpe
  obtain ⟨row, hrow⟩ := Option.isSome_iff_exists.mp hsome
  obtain ⟨hrowmem, hrowpath⟩ := findByPath_mem hrow
  have hlk : dlookup disk pe.1 = some pe.2 := dlookup_eq_some_of_mem hdk hdisk
  exact updateFor_none cat pe hrow (hs.2.1 row hrowmem pe.2 (by rw [hrowpath]; exact hlk))

theorem scanPlan_of_synced (cat : List SongRow) (nextId : Nat)
    (disk : List (String × DiskEntry))
    (hdk : (dkeys disk).Nodup) (hs : Synced disk cat) :
    scanPlan cat nextId disk = ([], nextId, zeroStats) := by
  have hsome : ∀ pe ∈ disk, (findByPath cat pe.1).isSome := fun pe hpe =>
    findByPath_isSome_of_exists (hs.1 pe hpe)
  have hA := mutsA_nil_of_synced hdk hs
  have hnew := newOf_eq_nil hsome
  have hmh : buildMh (missingOf cat disk) = [] := by
    apply buildMh_nil_of_none
    intro r hr
    obtain ⟨hrc, hrn⟩ := mem_missingOf.mp hr
    exact hs.2.2 r hrc hrn
  have haccB : accBOf cat disk nextId = ⟨[], [], nextId, 0, 0⟩ := by
    unfold accBOf
    rw [hnew, hmh]
    rfl
  unfold scanPlan
  rw [haccB, hA]
  rfl

theorem scan_library_of_synced (cat : List SongRow) (nextId : Nat) (walk : List DirEntry)
    (hs : Synced (discover walk) cat) :
    scan_library cat nextId walk = (cat, nextId, zeroStats) := by
  show ((scanPlan cat nextId (discover walk)).1.foldl applyMutation cat,
    (scanPlan cat nextId (discover walk)).2.1,
    (scanPlan cat nextId (discover walk)).2.2) = _
  rw [scanPlan_of_synced cat nextId (discover walk) (discover_keys_nodup walk) hs]
  rfl

theorem plan_muts_eq (cat : List SongRow) (nextId : Nat) (disk : List (String × DiskEntry)) :
    (scanPlan cat nextId disk).1 =
      mutsAOf cat disk ++ (accBOf cat disk nextId).muts ++
        (accBOf cat disk nextId).mh.map (fun hr => Mutation.del hr.2.id) := rfl

theorem plan_mem_cases {cat : List SongRow} {nextId : Nat} {disk : List (String × DiskEntry)}
    {m : Mutation} (hm : m ∈ (scanPlan cat nextId disk).1) :
    m ∈ mutsAOf cat disk ∨ m ∈ (accBOf cat disk nextId).muts ∨
      ∃ x ∈ (accBOf cat disk nextId).mh, m = Mutation.del x.2.id := by
  rw [plan_muts_eq] at hm
  rcases List.mem_append.mp hm with h1 | h1
  · rcases List.mem_append.mp h1 with h2 | h2
    · exact Or.inl h2
    · exact Or.inr (Or.inl h2)
  · obtain ⟨x, hx, hxe⟩ := List.mem_map.mp h1
    exact Or.inr (Or.inr ⟨x, hx, hxe.symm⟩)

theorem plan_untouched_common_match {cat : List SongRow} {nextId : Nat}
    {disk : List (String × DiskEntry)}
    (hdk : (dkeys disk).Nodup) (hids : (cat.map SongRow.id).Nodup)
    (hnext : ∀ r ∈ cat, r.id < nextId)
    {r : SongRow} (hr : r ∈ cat) {e : DiskEntry} (he : dlookup disk r.file_path = some e)
    (hmatch : r.file_hash = e.fp ∧ r.format = e.fmt) :
    ∀ m ∈ (scanPlan cat nextId disk).1, mutTouchId m ≠ r.id := by
  intro m hm ht
  rcases plan_mem_cases hm with hA | hB | ⟨x, hx, hdel⟩
  · obtain ⟨pe2, hpe2, row2, hrow2, hpath2, hf2, hcond2, hmeq2⟩ := mutsA_shape hA
    have htc : mutTouchId m = row2.id := by rw [hmeq2]; rfl
    have hre : row2 = r := nodup_map_inj hids row2 hrow2 r hr (by rw [← htc, ht])
    have hlk : dlookup disk pe2.1 = some pe2.2 := dlookup_eq_some_of_mem hdk hpe2
    have hee : pe2.2 = e := by
      rw [← hpath2, hre] at hlk
      rw [hlk] at he
      injection he
    rw [hre, hee] at hcond2
    exact hcond2 hmatch
  · rcases accB_touch_char hids hnext hB with ⟨x, hx, htc⟩ | htc
    · have hx2 := mem_buildMh hx
      have hre : x.2 = r :=
        nodup_map_inj hids x.2 (mem_missingOf.mp hx2.1).1 r hr (by rw [← htc, ht])
      have hnone := (mem_missingOf.mp hx2.1).2
      rw [hre, he] at hnone
      cases hnone
    · have hlt := hnext r hr
      omega
  · have hx0 := (accB_BInv hids hnext).mhSub x hx
    have hx2 := mem_buildMh hx0
    have htd : mutTouchId m = x.2.id := by rw [hdel]; rfl
    have hre : x.2 = r :=
      nodup_map_inj hids x.2 (mem_missingOf.mp hx2.1).1 r hr (by rw [← htd, ht])
    have hnone := (mem_missingOf.mp hx2.1).2
    rw [hre, he] at hnone
    cases hnone

theorem plan_untouched_missing_null {cat : List SongRow} {nextId : Nat}
    {disk : List (String × DiskEntry)}
    (hdk : (dkeys disk).Nodup) (hids : (cat.map SongRow.id).Nodup)
    (hnext : ∀ r ∈ cat, r.id < nextId)
    {r : SongRow} (hr : r ∈ cat) (hnone : dlookup disk r.file_path = none)
    (hnull : r.file_hash = none) :
    ∀ m ∈ (scanPlan cat nextId disk).1, mutTouchId m ≠ r.id := by
  intro m hm ht
  rcases plan_mem_cases hm with hA | hB | ⟨x, hx, hdel⟩
  · obtain ⟨row, hrow, htc, hsome⟩ := mutsA_touch_char hdk hA
    have hre : row = r := nodup_map_inj hids row hrow r hr (by rw [← htc, ht])
    rw [hre, hnone] at hsome
    cases hsome
  · rcases accB_touch_char hids hnext hB with ⟨x, hx, htc⟩ | htc
    · have hx2 := mem_buildMh hx
      have hre : x.2 = r :=
        nodup_map_inj hids x.2 (mem_missingOf.mp hx2.1).1 r hr (by rw [← htc, ht])
      have hsome := hx2.2
      rw [hre, hnull] at hsome
      cases hsome
    · have hlt := hnext r hr
      omega
  · have hx0 := (accB_BInv hids hnext).mhSub x hx
    have hx2 := mem_buildMh hx0
    have htd : mutTouchId m = x.2.id := by rw [hdel]; rfl
    have hre : x.2 = r :=
      nodup_map_inj hids x.2 (mem_missingOf.mp hx2.1).1 r hr (by rw [← htd, ht])
    have hsome := hx2.2
    rw [hre, hnull] at hsome
    cases hsome

theorem inv0_BInv (cat : List SongRow) (nextId : Nat) (disk : List (String × DiskEntry)) :
    BInv (buildMh (missingOf cat disk)) nextId (newOf cat disk)
      ⟨[], buildMh (missingOf cat disk), nextId, 0, 0⟩ :=
  ⟨fun x hx => hx, buildMh_keys_nodup _, Nat.le_refl _,
    fun x _ m hm => absurd hm (List.not_mem_nil m),
    fun m hm => absurd hm (List.not_mem_nil m), by simp⟩

theorem rows_common_case (cat : List SongRow) (nextId : Nat) (disk : List (String × DiskEntry))
    (hdk : (dkeys disk).Nodup) (hids : (cat.map SongRow.id).Nodup)
    (hpaths : (cat.map SongRow.file_path).Nodup) (hnext : ∀ r ∈ cat, r.id < nextId)
    {r : SongRow} (hr : r ∈ cat) {e : DiskEntry} (he : dlookup disk r.file_path = some e) :
    rowsWithId ((scanPlan cat nextId disk).1.foldl applyMutation cat) r.id =
      if r.file_hash = e.fp ∧ r.format = e.fmt then [r]
      else [{ r with file_hash := e.fp, format := e.fmt, filename := e.filename }] := by
  have hsingle : rowsWithId cat r.id = [r] := rowsWithId_eq_single hids hr
  rw [rowsWithId_foldl, hsingle]
  by_cases hmatch : r.file_hash = e.fp ∧ r.format = e.fmt
  · rw [if_pos hmatch]
    exact foldl_evolveId_untouched (fun r2 h2 => by rw [List.mem_singleton.mp h2])
      (plan_untouched_common_match hdk hids hnext hr he hmatch)
  · rw [if_neg hmatch]
    have hf : findByPath cat r.file_path = some r := findByPath_self hpaths hr
    have hpe : (r.file_path, e) ∈ disk := mem_of_dlookup_eq_some he
    have hcommon : (r.file_path, e) ∈ commonOf cat disk :=
      mem_commonOf.mpr ⟨hpe, by rw [show ((r.file_path, e) : String × DiskEntry).1 =
        r.file_path from rfl, hf]; rfl⟩
    have hcond : r.file_hash ≠ e.fp ∨ r.format ≠ e.fmt := by
      by_cases h1 : r.file_hash = e.fp
      · exact Or.inr (fun h2 => hmatch ⟨h1, h2⟩)
      · exact Or.inl h1
    have hupd : updateFor cat (r.file_path, e) =
        some (.updContent r.id e.fp e.fmt e.filename) := by
      simp only [updateFor_eq, show ((r.file_path, e) : String × DiskEntry).1 =
        r.file_path from rfl, hf]
      rw [if_pos hcond]
    have hmem : (Mutation.updContent r.id e.fp e.fmt e.filename) ∈
        (scanPlan cat nextId disk).1 := by
      rw [plan_muts_eq]
      exact List.mem_append.mpr (Or.inl (List.mem_append.mpr (Or.inl
        (List.mem_filterMap.mpr ⟨(r.file_path, e), hcommon, hupd⟩))))
    have htn := plan_touch_nodup hids hnext hdk
    obtain ⟨l1, l2, hdec, h1, h2⟩ := touch_decomp htn hmem
    have htouch : mutTouchId (Mutation.updContent r.id e.fp e.fmt e.filename) = r.id := rfl
    rw [foldl_evolveId_single hdec
      (fun m2 hm2 he2 => h1 m2 hm2 (he2.trans htouch.symm))
      (fun m2 hm2 he2 => h2 m2 hm2 (he2.trans htouch.symm))
      (fun r2 h2 => by rw [List.mem_singleton.mp h2])]
    simp [evolveId]

theorem rows_missing_none_case (cat : List SongRow) (nextId : Nat)
    (disk : List (String × DiskEntry))
    (hdk : (dkeys disk).Nodup) (hids : (cat.map SongRow.id).Nodup)
    (hnext : ∀ r ∈ cat, r.id < nextId)
    {r : SongRow} (hr : r ∈ cat) (hnone : dlookup disk r.file_path = none)
    (hnull : r.file_hash = none) :
    rowsWithId ((scanPlan cat nextId disk).1.foldl applyMutation cat) r.id = [r] := by
  rw [rowsWithId_foldl, rowsWithId_eq_single hids hr]
  exact foldl_evolveId_untouched (fun r2 h2 => by rw [List.mem_singleton.mp h2])
    (plan_untouched_missing_null hdk hids hnext hr hnone hnull)

theorem rows_missing_some_case (cat : List SongRow) (nextId : Nat)
    (disk : List (String × DiskEntry))
    (hdk : (dkeys disk).Nodup) (hids : (cat.map SongRow.id).Nodup)
    (hnext : ∀ r ∈ cat, r.id < nextId)
    (hdup : ∀ r1 ∈ missingOf cat disk, ∀ r2 ∈ missingOf cat disk, ∀ h : Digest,
      r1.file_hash = some h → r2.file_hash = some h → r1 = r2)
    {r : SongRow} (hr : r ∈ cat) (hnone : dlookup disk r.file_path = none)
    {h : Digest} (hhash : r.file_hash = some h) :
    (∃ pe ∈ disk, findByPath cat pe.1 = none ∧ pe.2.fp = some h ∧
      rowsWithId ((scanPlan cat nextId disk).1.foldl applyMutation cat) r.id =
        [{ r with file_path := pe.1, filename := pe.2.filename, format := pe.2.fmt }]) ∨
    rowsWithId ((scanPlan cat nextId disk).1.foldl applyMutation cat) r.id = [] := by
  have hmiss : r ∈ missingOf cat disk := mem_missingOf.mpr ⟨hr, hnone⟩
  have hmh0 : ((h, r) : Digest × SongRow) ∈ buildMh (missingOf cat disk) :=
    mem_of_dlookup_eq_some (buildMh_complete _ hdup hmiss hhash)
  have htn := plan_touch_nodup hids hnext hdk
  have hsingle : rowsWithId cat r.id = [r] := rowsWithId_eq_single hids hr
  have hdich := newFold_mh_dichotomy (mh0_ids_lt hnext) (mh0_inj hids)
    (newOf cat disk) (fun pe hp => hp) (inv0_BInv cat nextId disk) hmh0
  rcases hdich with hleft | ⟨pe, hpe, hfp, hmut⟩
  · right
    have hmemdel : Mutation.del r.id ∈ (scanPlan cat nextId disk).1 := by
      rw [plan_muts_eq]
      exact List.mem_append.mpr (Or.inr (List.mem_map.mpr ⟨(h, r), hleft, rfl⟩))
    obtain ⟨l1, l2, hdec, h1, h2⟩ := touch_decomp htn hmemdel
    have htouch : mutTouchId (Mutation.del r.id) = r.id := rfl
    rw [rowsWithId_foldl, hsingle,
      foldl_evolveId_single hdec
        (fun m2 hm2 he2 => h1 m2 hm2 (he2.trans htouch.symm))
        (fun m2 hm2 he2 => h2 m2 hm2 (he2.trans htouch.symm))
        (fun r2 h2 => by rw [List.mem_singleton.mp h2])]
    simp [evolveId]
  · left
    have hnew := mem_newOf.mp hpe
    refine ⟨pe, hnew.1, hnew.2, hfp, ?_⟩
    have hmem : Mutation.updPath r.id pe.1 pe.2.filename pe.2.fmt ∈
        (scanPlan cat nextId disk).1 := by
      rw [plan_muts_eq]
      exact List.mem_append.mpr (Or.inl (List.mem_append.mpr (Or.inr hmut)))
    obtain ⟨l1, l2, hdec, h1, h2⟩ := touch_decomp htn hmem
    have htouch : mutTouchId (Mutation.updPath r.id pe.1 pe.2.filename pe.2.fmt) = r.id := rfl
    rw [rowsWithId_foldl, hsingle,
      foldl_evolveId_single hdec
        (fun m2 hm2 he2 => h1 m2 hm2 (he2.trans htouch.symm))
        (fun m2 hm2 he2 => h2 m2 hm2 (he2.trans htouch.symm))
        (fun r2 h2 => by rw [List.mem_singleton.mp h2])]
    simp [evolveId]

theorem rows_ins_case (cat : List SongRow) (nextId : Nat) (disk : List (String × DiskEntry))
    (hdk : (dkeys disk).Nodup) (hids : (cat.map SongRow.id).Nodup)
    (hnext : ∀ r ∈ cat, r.id < nextId)
    {row : SongRow} (hmB : Mutation.ins row ∈ (accBOf cat disk nextId).muts) :
    ∃ pe ∈ disk, findByPath cat pe.1 = none ∧
      row = add_song_placeholder row.id pe.1 pe.2.filename pe.2.fmt pe.2.fp ∧
      nextId ≤ row.id ∧
      rowsWithId ((scanPlan cat nextId disk).1.foldl applyMutation cat) row.id = [row] := by
  rcases (accB_BInv hids hnext).shape _ hmB with ⟨x, hx, q, fn, fm, hmeq⟩ |
    ⟨pe, hpe, j, hj1, hj2, hmeq⟩
  · cases hmeq
  · injection hmeq with hmeq
    have hid : row.id = j := by rw [hmeq]; rfl
    have hnewmem := mem_newOf.mp hpe
    refine ⟨pe, hnewmem.1, hnewmem.2, by rw [hid]; exact hmeq, by rw [hid]; exact hj1, ?_⟩
    have hnil : rowsWithId cat row.id = [] := by
      apply rowsWithId_eq_nil
      intro r hrc he
      have h1 := hnext r hrc
      rw [he, hid] at h1
      omega
    have hmem : Mutation.ins row ∈ (scanPlan cat nextId disk).1 := by
      rw [plan_muts_eq]
      exact List.mem_append.mpr (Or.inl (List.mem_append.mpr (Or.inr hmB)))
    have htn := plan_touch_nodup hids hnext hdk
    obtain ⟨l1, l2, hdec, h1, h2⟩ := touch_decomp htn hmem
    have htouch : mutTouchId (Mutation.ins row) = row.id := rfl
    rw [rowsWithId_foldl, hnil,
      foldl_evolveId_single hdec
        (fun m2 hm2 he2 => h1 m2 hm2 (he2.trans htouch.symm))
        (fun m2 hm2 he2 => h2 m2 hm2 (he2.trans htouch.symm))
        (fun r2 h2 => absurd h2 (List.not_mem_nil r2))]
    simp [evolveId]

theorem cat1_origin (cat : List SongRow) (nextId : Nat) (disk : List (String × DiskEntry))
    {r2 : SongRow}
    (h2 : r2 ∈ (scanPlan cat nextId disk).1.foldl applyMutation cat) :
    (∃ r ∈ cat, r.id = r2.id) ∨
    ∃ row : SongRow, Mutation.ins row ∈ (accBOf cat disk nextId).muts ∧ row.id = r2.id := by
  by_cases hcat : ∃ r ∈ cat, r.id = r2.id
  · exact Or.inl hcat
  · right
    by_contra hno
    push_neg at hno
    have hnil : rowsWithId cat r2.id = [] :=
      rowsWithId_eq_nil (fun r hr he => hcat ⟨r, hr, he⟩)
    have hins : ∀ row : SongRow,
        Mutation.ins row ∈ (scanPlan cat nextId disk).1 → row.id ≠ r2.id := by
      intro row hrow
      rcases plan_mem_cases hrow with hA | hB | ⟨x, hx, hdel⟩
      · exact (mutsA_no_ins hA).elim
      · exact hno row hB
      · cases hdel
    have hend : rowsWithId ((scanPlan cat nextId disk).1.foldl applyMutation cat) r2.id = [] := by
      rw [rowsWithId_foldl, hnil]
      exact foldl_evolveId_nil hins
    exact absurd (self_mem_rowsWithId h2) (by rw [hend]; exact List.not_mem_nil r2)

theorem scanPlan_synced (cat : List SongRow) (nextId : Nat) (disk : List (String × DiskEntry))
    (hdk : (dkeys disk).Nodup)
    (hids : (cat.map SongRow.id).Nodup)
    (hpaths : (cat.map SongRow.file_path).Nodup)
    (hnext : ∀ r ∈ cat, r.id < nextId)
    (hdup : ∀ r1 ∈ missingOf cat disk, ∀ r2 ∈ missingOf cat disk, ∀ h : Digest,
      r1.file_hash = some h → r2.file_hash = some h → r1 = r2) :
    Synced disk ((scanPlan cat nextId disk).1.foldl applyMutation cat) := by
  refine ⟨?_, ?_, ?_⟩
  · -- every disk path has a stored row
    intro pe hpe
    cases hfind : findByPath cat pe.1 with
    | some r =>
      obtain ⟨hrmem, hrpath⟩ := findByPath_mem hfind
      have he : dlookup disk r.file_path = some pe.2 := by
        rw [hrpath]
        exact dlookup_eq_some_of_mem hdk hpe
      have hrows := rows_common_case cat nextId disk hdk hids hpaths hnext hrmem he
      by_cases hmatch : r.file_hash = pe.2.fp ∧ r.format = pe.2.fmt
      · rw [if_pos hmatch] at hrows
        exact ⟨r, rowsWithId_subset (by rw [hrows]; exact List.mem_singleton.mpr rfl), hrpath⟩
      · rw [if_neg hmatch] at hrows
        exact ⟨{ r with
            file_hash := pe.2.fp, format := pe.2.fmt, filename := pe.2.filename },
          rowsWithId_subset (by rw [hrows]; exact List.mem_singleton.mpr rfl), hrpath⟩
    | none =>
      have hpenew : pe ∈ newOf cat disk := mem_newOf.mpr ⟨hpe, hfind⟩
      have hout := newFold_path_outcome (mh0_ids_lt hnext) (mh0_inj hids)
        (newOf cat disk) (fun q hq => hq) (inv0_BInv cat nextId disk) hpenew
      have htn := plan_touch_nodup hids hnext hdk
      rcases hout with ⟨x, hx, hfp, hmut⟩ | ⟨j, hj1, hmut⟩
      · have hx2 := mem_buildMh hx
        have hxmem : x.2 ∈ cat := (mem_missingOf.mp hx2.1).1
        have hmem : Mutation.updPath x.2.id pe.1 pe.2.filename pe.2.fmt ∈
            (scanPlan cat nextId disk).1 := by
          rw [plan_muts_eq]
          exact List.mem_append.mpr (Or.inl (List.mem_append.mpr (Or.inr hmut)))
        obtain ⟨l1, l2, hdec, h1, h2⟩ := touch_decomp htn hmem
        have htouch : mutTouchId
            (Mutation.updPath x.2.id pe.1 pe.2.filename pe.2.fmt) = x.2.id := rfl
        have hrows : rowsWithId ((scanPlan cat nextId disk).1.foldl applyMutation cat)
            x.2.id =
            [{ x.2 with
                file_path := pe.1, filename := pe.2.filename, format := pe.2.fmt }] := by
          rw [rowsWithId_foldl, rowsWithId_eq_single hids hxmem,
            foldl_evolveId_single hdec
              (fun m2 hm2 he2 => h1 m2 hm2 (he2.trans htouch.symm))
              (fun m2 hm2 he2 => h2 m2 hm2 (he2.trans htouch.symm))
              (fun r2 hh => by rw [List.mem_singleton.mp hh])]
          simp [evolveId]
        exact ⟨_, rowsWithId_subset (by rw [hrows]; exact List.mem_singleton.mpr rfl), rfl⟩
      · have hmem : Mutation.ins
            (add_song_placeholder j pe.1 pe.2.filename pe.2.fmt pe.2.fp) ∈
            (scanPlan cat nextId disk).1 := by
          rw [plan_muts_eq]
          exact List.mem_append.mpr (Or.inl (List.mem_append.mpr (Or.inr hmut)))
        obtain ⟨l1, l2, hdec, h1, h2⟩ := touch_decomp htn hmem
        have htouch : mutTouchId (Mutation.ins
            (add_song_placeholder j pe.1 pe.2.filename pe.2.fmt pe.2.fp)) = j := rfl
        have hnil : rowsWithId cat j = [] := rowsWithId_eq_nil (fun r hrc he => by
          have := hnext r hrc
          omega)
        have hrows : rowsWithId ((scanPlan cat nextId disk).1.foldl applyMutation cat) j =
            [add_song_placeholder j pe.1 pe.2.filename pe.2.fmt pe.2.fp] := by
          rw [rowsWithId_foldl, hnil,
            foldl_evolveId_single hdec
              (fun m2 hm2 he2 => h1 m2 hm2 (he2.trans htouch.symm))
              (fun m2 hm2 he2 => h2 m2 hm2 (he2.trans htouch.symm))
              (fun r2 hh => absurd hh (List.not_mem_nil r2))]
          simp [evolveId, add_song_placeholder]
        exact ⟨_, rowsWithId_subset (by rw [hrows]; exact List.mem_singleton.mpr rfl), rfl⟩
  · -- stored rows at disk paths carry the disk fingerprint and format
    intro r2 h2 e2 he2
    rcases cat1_origin cat nextId disk h2 with ⟨r, hr, hid⟩ | ⟨row, hrowB, hid⟩
    · have hr2mem : r2 ∈ rowsWithId
          ((scanPlan cat nextId disk).1.foldl applyMutation cat) r.id := by
        rw [hid]
        exact self_mem_rowsWithId h2
      cases hlk : dlookup disk r.file_path with
      | some e =>
        have hrows := rows_common_case cat nextId disk hdk hids hpaths hnext hr hlk
        by_cases hmatch : r.file_hash = e.fp ∧ r.format = e.fmt
        · rw [if_pos hmatch] at hrows
          rw [hrows] at hr2mem
          have hr2 := List.mem_singleton.mp hr2mem
          subst hr2
          rw [hlk] at he2
          injection he2 with he2
          rw [← he2]
          exact hmatch
        · rw [if_neg hmatch] at hrows
          rw [hrows] at hr2mem
          have hr2 := List.mem_singleton.mp hr2mem
          subst hr2
          rw [show ({ r with
            file_hash := e.fp, format := e.fmt, filename := e.filename } :
              SongRow).file_path = r.file_path from rfl] at he2
          rw [hlk] at he2
          injection he2 with he2
          rw [← he2]
          exact ⟨rfl, rfl⟩
      | none =>
        cases hhash : r.file_hash with
        | none =>
          have hrows := rows_missing_none_case cat nextId disk hdk hids hnext hr hlk hhash
          rw [hrows] at hr2mem
          have hr2 := List.mem_singleton.mp hr2mem
          subst hr2
          rw [hlk] at he2
          cases he2
        | some h =>
          rcases rows_missing_some_case cat nextId disk hdk hids hnext hdup hr hlk hhash with
            ⟨pe, hpedisk, hpenone, hfp, hrows⟩ | hrows
          · rw [hrows] at hr2mem
            have hr2 := List.mem_singleton.mp hr2mem
            subst hr2
            rw [show ({ r with
              file_path := pe.1, filename := pe.2.filename, format := pe.2.fmt } :
                SongRow).file_path = pe.1 from rfl] at he2
            rw [dlookup_eq_some_of_mem hdk hpedisk] at he2
            injection he2 with he2
            rw [← he2]
            refine ⟨?_, rfl⟩
            show r.file_hash = pe.2.fp
            rw [hhash, hfp]
          · rw [hrows] at hr2mem
            cases hr2mem
    · obtain ⟨pe, hpedisk, hpenone, hroweq, hjge, hrows⟩ :=
        rows_ins_case cat nextId disk hdk hids hnext hrowB
      have hr2mem : r2 ∈ rowsWithId
          ((scanPlan cat nextId disk).1.foldl applyMutation cat) row.id := by
        rw [hid]
        exact self_mem_rowsWithId h2
      rw [hrows] at hr2mem
      have hr2 := List.mem_singleton.mp hr2mem
      rw [hr2] at he2 ⊢
      have hpath : row.file_path = pe.1 := by rw [hroweq]; rfl
      rw [hpath, dlookup_eq_some_of_mem hdk hpedisk] at he2
      injection he2 with he2
      rw [← he2]
      constructor
      · show row.file_hash = pe.2.fp
        rw [hroweq]
        rfl
      · show row.format = pe.2.fmt
        rw [hroweq]
        rfl
  · -- stored rows off disk carry a null fingerprint
    intro r2 h2 hnone2
    rcases cat1_origin cat nextId disk h2 with ⟨r, hr, hid⟩ | ⟨row, hrowB, hid⟩
    · have hr2mem : r2 ∈ rowsWithId
          ((scanPlan cat nextId disk).1.foldl applyMutation cat) r.id := by
        rw [hid]
        exact self_mem_rowsWithId h2
      cases hlk : dlookup disk r.file_path with
      | some e =>
        have hrows := rows_common_case cat nextId disk hdk hids hpaths hnext hr hlk
        by_cases hmatch : r.file_hash = e.fp ∧ r.format = e.fmt
        · rw [if_pos hmatch] at hrows
          rw [hrows] at hr2mem
          have hr2 := List.mem_singleton.mp hr2mem
          subst hr2
          rw [hlk] at hnone2
          cases hnone2
        · rw [if_neg hmatch] at hrows
          rw [hrows] at hr2mem
          have hr2 := List.mem_singleton.mp hr2mem
          subst hr2
          rw [show ({ r with
            file_hash := e.fp, format := e.fmt, filename := e.filename } :
              SongRow).file_path = r.file_path from rfl] at hnone2
          rw [hlk] at hnone2
          cases hnone2
      | none =>
        cases hhash : r.file_hash with
        | none =>
          have hrows := rows_missing_none_case cat nextId disk hdk hids hnext hr hlk hhash
          rw [hrows] at hr2mem
          have hr2 := List.mem_singleton.mp hr2mem
          subst hr2
          exact hhash
        | some h =>
          rcases rows_missing_some_case cat nextId disk hdk hids hnext hdup hr hlk hhash with
            ⟨pe, hpedisk, hpenone, hfp, hrows⟩ | hrows
          · rw [hrows] at hr2mem
            have hr2 := List.mem_singleton.mp hr2mem
            subst hr2
            rw [show ({ r with
              file_path := pe.1, filename := pe.2.filename, format := pe.2.fmt } :
                SongRow).file_path = pe.1 from rfl] at hnone2
            rw [dlookup_eq_some_of_mem hdk hpedisk] at hnone2
            cases hnone2
          · rw [hrows] at hr2mem
            cases hr2mem
    · obtain ⟨pe, hpedisk, hpenone, hroweq, hjge, hrows⟩ :=
        rows_ins_case cat nextId disk hdk hids hnext hrowB
      have hr2mem : r2 ∈ rowsWithId
          ((scanPlan cat nextId disk).1.foldl applyMutation cat) row.id := by
        rw [hid]
        exact self_mem_rowsWithId h2
      rw [hrows] at hr2mem
      have hr2 := List.mem_singleton.mp hr2mem
      rw [hr2] at hnone2
      have hpath : row.file_path = pe.1 := by rw [hroweq]; rfl
      rw [hpath, dlookup_eq_some_of_mem hdk hpedisk] at hnone2
      cases hnone2

-- ==========================================
-- Lemma library: enrichment status through the scan
-- ==========================================

theorem applyMutation_status (cat : List SongRow) (m : Mutation) {r1 : SongRow}
    (h : r1 ∈ applyMutation cat m) :
    (∃ r ∈ cat, r.id = r1.id ∧ r.metadata_status = r1.metadata_status) ∨
    ∃ row : SongRow, m = .ins row ∧ r1 = row := by
  cases m with
  | updContent j fp fmt fn =>
    simp only [applyMutation] at h
    obtain ⟨r, hr, hfr⟩ := List.mem_map.mp h
    left
    refine ⟨r, hr, ?_, ?_⟩ <;> rw [← hfr] <;> split <;> rfl
  | updPath j p fn fmt =>
    simp only [applyMutation] at h
    obtain ⟨r, hr, hfr⟩ := List.mem_map.mp h
    left
    refine ⟨r, hr, ?_, ?_⟩ <;> rw [← hfr] <;> split <;> rfl
  | ins row =>
    simp only [applyMutation] at h
    rcases List.mem_append.mp h with h1 | h1
    · exact Or.inl ⟨r1, h1, rfl, rfl⟩
    · exact Or.inr ⟨row, rfl, List.mem_singleton.mp h1⟩
  | del j =>
    simp only [applyMutation] at h
    exact Or.inl ⟨r1, List.mem_of_mem_filter h, rfl, rfl⟩

theorem foldl_apply_status (muts : List Mutation) (cat : List SongRow)
    (hins : ∀ row : SongRow, Mutation.ins row ∈ muts → row.metadata_status = "pending") :
    ∀ r2 ∈ muts.foldl applyMutation cat,
      (∃ r ∈ cat, r.id = r2.id ∧ r.metadata_status = r2.metadata_status) ∨
      r2.metadata_status = "pending" := by
  induction muts generalizing cat with
  | nil => exact fun r2 h2 => Or.inl ⟨r2, h2, rfl, rfl⟩
  | cons m rest ih =>
    intro r2 h2
    rw [List.foldl_cons] at h2
    rcases ih (applyMutation cat m)
        (fun row hrow => hins row (List.mem_cons_of_mem _ hrow)) r2 h2 with
      ⟨r1, hr1, hid, hst⟩ | hp
    · rcases applyMutation_status cat m hr1 with ⟨r, hr, hid2, hst2⟩ | ⟨row, hm, hr1row⟩
      · exact Or.inl ⟨r, hr, hid2.trans hid, hst2.trans hst⟩
      · right
        rw [← hst, hr1row]
        exact hins row (by rw [hm]; exact List.mem_cons_self _ _)
    · exact Or.inr hp

theorem accB_ins_pending {cat : List SongRow} {disk : List (String × DiskEntry)}
    {nextId : Nat} {row : SongRow}
    (h : Mutation.ins row ∈ (accBOf cat disk nextId).muts) :
    row.metadata_status = "pending" := by
  have haux : ∀ (l : List (String × DiskEntry)) (acc : NewAcc),
      (∀ row2 : SongRow, Mutation.ins row2 ∈ acc.muts → row2.metadata_status = "pending") →
      ∀ row2 : SongRow, Mutation.ins row2 ∈ (l.foldl newStep acc).muts →
        row2.metadata_status = "pending" := by
    intro l
    induction l with
    | nil => exact fun acc h0 => h0
    | cons pe rest ih =>
      intro acc h0
      rw [List.foldl_cons]
      apply ih
      intro row2 hrow2
      rcases newStep_cases acc pe with ⟨hh, oldRow, hfp, hmh, heq⟩ | heq
      · rw [heq] at hrow2
        rcases List.mem_append.mp hrow2 with h1 | h1
        · exact h0 row2 h1
        · exact Mutation.noConfusion (List.mem_singleton.mp h1)
      · rw [heq] at hrow2
        rcases List.mem_append.mp hrow2 with h1 | h1
        · exact h0 row2 h1
        · have hrr := List.mem_singleton.mp h1
          injection hrr with hrr
          rw [hrr]
          rfl
  exact haux _ _ (fun row2 h2 => absurd h2 (List.not_mem_nil _)) row h

theorem plan_ins_pending {cat : List SongRow} {disk : List (String × DiskEntry)}
    {nextId : Nat} {row : SongRow}
    (h : Mutation.ins row ∈ (scanPlan cat nextId disk).1) :
    row.metadata_status = "pending" := by
  rcases plan_mem_cases h with hA | hB | ⟨x, hx, hdel⟩
  · exact (mutsA_no_ins hA).elim
  · exact accB_ins_pending hB
  · exact Mutation.noConfusion hdel

/-- C2 as amended: for every well-formed catalog (distinct ids, distinct
    relativePaths, next AUTOINCREMENT id above every stored id) in which
    no two entries missing from disk share the same non-null fingerprint,
    running scan twice with no disk changes yields all-zero statistics on
    the second run and leaves the catalog and the next id unchanged. -/
theorem c2_scan_idempotent_of_injective_missing_fingerprints
    (cat : List SongRow) (nextId : Nat) (walk : List DirEntry)
    (hids : (cat.map SongRow.id).Nodup)
    (hpaths : (cat.map SongRow.file_path).Nodup)
    (hnext : ∀ r ∈ cat, r.id < nextId)
    (hdup : ∀ r1 ∈ missingOf cat (discover walk), ∀ r2 ∈ missingOf cat (discover walk),
      ∀ h : Digest, r1.file_hash = some h → r2.file_hash = some h → r1 = r2) :
    scan_library (scan_library cat nextId walk).1 (scan_library cat nextId walk).2.1 walk =
      ((scan_library cat nextId walk).1, (scan_library cat nextId walk).2.1, zeroStats) := by
  apply scan_library_of_synced
  show Synced (discover walk)
    ((scanPlan cat nextId (discover walk)).1.foldl applyMutation cat)
  exact scanPlan_synced cat nextId (discover walk) (discover_keys_nodup walk)
    hids hpaths hnext hdup

/-- Witness for C2 as amended: one entry whose file was relocated with
    identical bytes; the first scan reports the move and the second scan
    reports all zeros and changes nothing. -/
theorem c2_scan_idempotent_witness :
    (([exRowA].map SongRow.id).Nodup ∧ ([exRowA].map SongRow.file_path).Nodup ∧
      (∀ r ∈ [exRowA], r.id < 2) ∧
      missingOf [exRowA] (discover exWalkMoved) = [exRowA]) ∧
    scan_library (scan_library [exRowA] 2 exWalkMoved).1
        (scan_library [exRowA] 2 exWalkMoved).2.1 exWalkMoved =
      ((scan_library [exRowA] 2 exWalkMoved).1,
       (scan_library [exRowA] 2 exWalkMoved).2.1, zeroStats) :=
  ⟨⟨by decide, by decide, by decide, by decide⟩,
   c2_scan_idempotent_of_injective_missing_fingerprints [exRowA] 2 exWalkMoved
     (by decide) (by decide) (by decide)
     (fun r1 hr1 r2 hr2 h h1 h2 => by
       rw [show missingOf [exRowA] (discover exWalkMoved) = [exRowA] from by decide]
         at hr1 hr2
       rw [List.mem_singleton.mp hr1, List.mem_singleton.mp hr2])⟩

/-- C5 counterexample: the claim states that an in-place content update
    transitions the entry to pending. Scanning an enriched entry whose
    file content changed at its unchanged path performs the update (one
    updated, fingerprint rewritten) yet the stored enrichment status is
    still enriched, not pending. -/
theorem c5_content_update_keeps_enriched_status :
    scan_library [exRowEnriched] 2 exWalkChanged =
      ([{ exRowEnriched with file_hash := some (2, [0]) }], 2, ⟨0, 0, 0, 1⟩) ∧
    ({ exRowEnriched with file_hash := some (2, [0]) } : SongRow).metadata_status =
      "enriched" ∧
    ("enriched" : String) ≠ "pending" := by decide

/-- C5 as amended: the scan never rewrites the enrichment status of a
    surviving row: every row of the post-scan catalog either keeps the id
    and the exact enrichment status of a pre-scan row (updated and moved
    rows fall here, so a content update does not re-pend an enriched
    entry), or is a freshly inserted placeholder whose status is pending. -/
theorem c5_scan_preserves_enrichment_status
    (cat : List SongRow) (nextId : Nat) (walk : List DirEntry)
    {r2 : SongRow} (h2 : r2 ∈ (scan_library cat nextId walk).1) :
    (∃ r ∈ cat, r.id = r2.id ∧ r.metadata_status = r2.metadata_status) ∨
    r2.metadata_status = "pending" := by
  have h2b : r2 ∈ (scanPlan cat nextId (discover walk)).1.foldl applyMutation cat := h2
  exact foldl_apply_status _ cat (fun row hrow => plan_ins_pending hrow) r2 h2b

/-- Witness for C5 as amended at the updated enriched entry. -/
theorem c5_status_witness :
    (({ exRowEnriched with file_hash := some (2, [0]) } : SongRow) ∈
      (scan_library [exRowEnriched] 2 exWalkChanged).1) ∧
    ((∃ r ∈ [exRowEnriched],
        r.id = ({ exRowEnriched with file_hash := some (2, [0]) } : SongRow).id ∧
        r.metadata_status =
          ({ exRowEnriched with file_hash := some (2, [0]) } : SongRow).metadata_status) ∨
      ({ exRowEnriched with file_hash := some (2, [0]) } : SongRow).metadata_status =
        "pending") :=
  ⟨by decide,
   c5_scan_preserves_enrichment_status [exRowEnriched] 2 exWalkChanged (by decide)⟩
